import Mathlib

/-!
Verification development for the Datathon repository.

This file gives a shallow embedding, in Lean 4, of the parts of the
repository that the frozen claims talk about:

* `src/tron/pathfinder.py` — the `Pathfinder` class with `bfs`, `a_star`
  and `flood_fill` over a rectangular occupancy grid;
* `src/tron/game_simulator.py` — the `TronSimulator` class with
  `is_valid_move` and `make_move`;
* `src/MCP/server.py` — `ContextAnalyzer.analyze`,
  `ContextAssembler.assemble_context` and the HTTP handlers
  `do_POST` / `do_GET`;
* `src/maishanyun.py` — the numeric-column filter of the Raw Data tab.

Conventions of the embedding:

* Python integers are `Int` (positions, deltas); cell contents are `Nat`.
* Python lists indexed in a bounds-guarded way are embedded with
  `List.getD`; every access that the Python code performs is guarded by an
  in-bounds test, so the `getD` default is never observable on rectangular
  boards (`WFBoard` / `TronSimulator.WF` states rectangularity).
* Python `while` loops are embedded with an explicit fuel argument that is
  large enough for the loop to run to completion; sufficiency of the fuel
  is part of the proofs below.
* The Python `heapq` used by `a_star` is embedded by its observable
  behaviour: the heap is a multiset of `(f, position)` entries and
  `heappop` removes a least entry in the lexicographic tuple order that
  Python uses to compare `(int, (int, int))` tuples (`popMin` below).
* Python `dict`s are embedded as association lists with first-match
  lookup and prepend-to-update (shadowing), which has the same lookup
  semantics as in-place update.
* I/O performed by the server (network fetches, the wall clock, the JSON
  body already read from the socket, exception messages produced by the
  Python runtime) is passed in as explicit oracle parameters; the pure
  control flow around those oracles is embedded from the source.
* Exceptions escaping a Python function are embedded by an `Option`-typed
  result with `none` meaning "raised".
-/

/-! ## Common grid model -/

/-- A position on the grid: Python `(x, y)` integer tuples. -/
abbrev Pos : Type := Int × Int

/-- A board: Python list of rows, each a list of cell values (0 = empty, 1 = wall). -/
abbrev Board : Type := List (List Nat)

/-- Reading `board[y][x]`.  Every read performed by the embedded code is
guarded by `0 <= x < width` and `0 <= y < height`, so on a rectangular
board the `getD` defaults are never hit. -/
def cellAt (board : Board) (p : Pos) : Nat :=
  (board.getD p.2.toNat []).getD p.1.toNat 0

/-! ## `TronSimulator` (src/tron/game_simulator.py) -/

/-- The mutable state of a `TronSimulator` instance. -/
structure TronSimulator where
  width : Nat
  height : Nat
  board : Board
  myPos : Pos
  oppPos : Pos
  myTrail : List Pos
  oppTrail : List Pos
  turn : Nat
  gameOver : Bool
  winner : Option String
  /-- `self.opp_last_dir`; the attribute may be absent (`None` via `getattr`). -/
  oppLastDir : Option String
  deriving DecidableEq, Repr

/-- The `self.directions` dict of the simulator, as an association list in
insertion order. -/
def TronSimulator.directionsList : List (String × (Int × Int)) :=
  [("up", (0, -1)), ("down", (0, 1)), ("left", (-1, 0)), ("right", (1, 0))]

/-- `self.directions[d]` as a partial lookup: `none` models a `KeyError`. -/
def dirDelta (d : String) : Option (Int × Int) :=
  (TronSimulator.directionsList.find? (fun e => e.1 == d)).map (·.2)

/-- The key list `self.directions.keys()` in insertion order. -/
def dirNames : List String := ["up", "down", "left", "right"]

/-- Rectangularity of the simulator's board (a real game state always has a
`height × width` board). -/
def TronSimulator.WF (sim : TronSimulator) : Prop :=
  sim.board.length = sim.height ∧ ∀ row ∈ sim.board, row.length = sim.width

/-- `TronSimulator.is_valid_move`: true iff the direction is a known key and
the destination cell is in bounds and currently unoccupied. -/
def TronSimulator.isValidMove (sim : TronSimulator) (position : Pos) (direction : String) :
    Bool :=
  match dirDelta direction with
  | none => false
  | some (dx, dy) =>
    let newX := position.1 + dx
    let newY := position.2 + dy
    if newX < 0 || newX ≥ (sim.width : Int) || newY < 0 || newY ≥ (sim.height : Int) then
      false
    else if cellAt sim.board (newX, newY) = 1 then
      false
    else
      true

/-- Writing `board[y][x] = v` (only performed at in-bounds positions). -/
def setCell (board : Board) (p : Pos) (v : Nat) : Board :=
  board.set p.2.toNat ((board.getD p.2.toNat []).set p.1.toNat v)

/-- `TronSimulator.make_move`.

The outer `Option` is `none` exactly when the Python code raises an
uncaught exception (the `KeyError` from `self.directions[...]`); the inner
`Option String` is the value the Python method returns (`self.winner` can
be `None`).  `pick` is an oracle for `random.choice` over the non-empty
list of currently valid opponent moves. -/
def TronSimulator.makeMove (pick : List String → String) (sim : TronSimulator)
    (myDirection : String) (oppDirectionArg : Option String) :
    Option (Option String × TronSimulator) :=
  if sim.gameOver then
    some (sim.winner, sim)
  else
    let sim := { sim with turn := sim.turn + 1 }
    let oppDirection :=
      match oppDirectionArg with
      | some d => d
      | none =>
        let validOppMoves := dirNames.filter (fun d => sim.isValidMove sim.oppPos d)
        if validOppMoves.isEmpty then "up" else pick validOppMoves
    let sim := { sim with oppLastDir := some oppDirection }
    let myValid := sim.isValidMove sim.myPos myDirection
    let oppValid := sim.isValidMove sim.oppPos oppDirection
    match dirDelta myDirection with
    | none => none
    | some (myDx, myDy) =>
      let myNewPos : Pos := (sim.myPos.1 + myDx, sim.myPos.2 + myDy)
      match dirDelta oppDirection with
      | none => none
      | some (oppDx, oppDy) =>
        let oppNewPos : Pos := (sim.oppPos.1 + oppDx, sim.oppPos.2 + oppDy)
        let myCollision := !myValid || cellAt sim.board myNewPos = 1
        let oppCollision := !oppValid || cellAt sim.board oppNewPos = 1
        if myNewPos = oppNewPos then
          some (some "draw", { sim with gameOver := true, winner := some "draw" })
        else if myNewPos = sim.oppPos ∧ oppNewPos = sim.myPos then
          some (some "draw", { sim with gameOver := true, winner := some "draw" })
        else if myCollision ∧ oppCollision then
          some (some "draw", { sim with gameOver := true, winner := some "draw" })
        else if myCollision then
          some (some "lose", { sim with gameOver := true, winner := some "lose" })
        else if oppCollision then
          some (some "win", { sim with gameOver := true, winner := some "win" })
        else
          some (some "continue",
            { sim with
              myPos := myNewPos
              oppPos := oppNewPos
              myTrail := sim.myTrail ++ [myNewPos]
              oppTrail := sim.oppTrail ++ [oppNewPos]
              board := setCell (setCell sim.board myNewPos 1) oppNewPos 1 })

/-! ## `Pathfinder` (src/tron/pathfinder.py) -/

/-- A `Pathfinder` instance: the configured board dimensions. -/
structure Pathfinder where
  width : Nat
  height : Nat
  deriving DecidableEq, Repr

/-- `self.directions = [(0, -1), (0, 1), (-1, 0), (1, 0)]`. -/
def directions : List (Int × Int) := [(0, -1), (0, 1), (-1, 0), (1, 0)]

/-- The bounds test `0 <= x < self.width and 0 <= y < self.height`. -/
def Pathfinder.inBounds (pf : Pathfinder) (p : Pos) : Bool :=
  decide (0 ≤ p.1) && decide (p.1 < (pf.width : Int)) &&
    decide (0 ≤ p.2) && decide (p.2 < (pf.height : Int))

/-- The traversability test used by all three algorithms: in bounds and
`board[y][x] == 0`. -/
def Pathfinder.passable (pf : Pathfinder) (board : Board) (p : Pos) : Bool :=
  pf.inBounds p && decide (cellAt board p = 0)

/-- Rectangularity of a board with respect to the pathfinder's dimensions. -/
def WFBoard (pf : Pathfinder) (board : Board) : Prop :=
  board.length = pf.height ∧ ∀ row ∈ board, row.length = pf.width

/-- The set of in-bounds positions of the grid. -/
def Pathfinder.allCells (pf : Pathfinder) : Finset Pos :=
  (Finset.range pf.width ×ˢ Finset.range pf.height).image
    (fun q => ((q.1 : Int), (q.2 : Int)))

/-- One pass of `bfs`'s inner `for dx, dy in self.directions` loop: a
`some` first component signals the early `return path + [goal]`. -/
def bfsExpand (pf : Pathfinder) (goal : Pos) (board : Board) (c : Pos) (path : List Pos) :
    List (Int × Int) → List (Pos × List Pos) → Finset Pos →
      Option (List Pos) × List (Pos × List Pos) × Finset Pos
  | [], queue, visited => (none, queue, visited)
  | (dx, dy) :: dirs, queue, visited =>
    let newPos : Pos := (c.1 + dx, c.2 + dy)
    if newPos = goal then
      (some (path ++ [goal]), queue, visited)
    else if newPos ∉ visited ∧ pf.passable board newPos = true then
      bfsExpand pf goal board c path dirs (queue ++ [(newPos, path ++ [newPos])])
        (insert newPos visited)
    else
      bfsExpand pf goal board c path dirs queue visited

/-- The `while queue:` loop of `bfs`, with fuel.  `queue` holds
`(position, path)` pairs exactly as the Python deque does. -/
def bfsAux (pf : Pathfinder) (goal : Pos) (board : Board) :
    Nat → List (Pos × List Pos) → Finset Pos → Option (List Pos)
  | 0, _, _ => none
  | _ + 1, [], _ => none
  | fuel + 1, (c, path) :: queue, visited =>
    match bfsExpand pf goal board c path directions queue visited with
    | (some p, _, _) => some p
    | (none, queue', visited') => bfsAux pf goal board fuel queue' visited'

/-- `Pathfinder.bfs`.  The fuel `width * height + 1` dominates the loop's
decreasing measure (queue length plus undiscovered cells), which the
theorems below prove. -/
def Pathfinder.bfs (pf : Pathfinder) (start goal : Pos) (board : Board) :
    Option (List Pos) :=
  if start = goal then
    some [start]
  else
    bfsAux pf goal board (pf.width * pf.height + 1) [(start, [start])] {start}

/-- One pass of `flood_fill`'s inner direction loop. -/
def floodExpand (pf : Pathfinder) (board : Board) (c : Pos) :
    List (Int × Int) → List Pos → Finset Pos → List Pos × Finset Pos
  | [], queue, visited => (queue, visited)
  | (dx, dy) :: dirs, queue, visited =>
    let newPos : Pos := (c.1 + dx, c.2 + dy)
    if newPos ∉ visited ∧ pf.passable board newPos = true then
      floodExpand pf board c dirs (queue ++ [newPos]) (insert newPos visited)
    else
      floodExpand pf board c dirs queue visited

/-- The `while queue:` loop of `flood_fill`, with fuel. -/
def floodLoop (pf : Pathfinder) (board : Board) :
    Nat → List Pos → Finset Pos → Finset Pos
  | 0, _, visited => visited
  | _ + 1, [], visited => visited
  | fuel + 1, c :: queue, visited =>
    let s := floodExpand pf board c directions queue visited
    floodLoop pf board fuel s.1 s.2

/-- `Pathfinder.flood_fill`. -/
def Pathfinder.flood_fill (pf : Pathfinder) (start : Pos) (board : Board) : Finset Pos :=
  floodLoop pf board (pf.width * pf.height + 1) [start] {start}

/-- The Manhattan-distance heuristic of `a_star` (a Python `int`, always
non-negative, so a `Nat`). -/
def heuristic (goal p : Pos) : Nat :=
  (p.1 - goal.1).natAbs + (p.2 - goal.2).natAbs

/-- Lookup in an association list embedding a Python dict. -/
def lookupA {α : Type} (l : List (Pos × α)) (k : Pos) : Option α :=
  (l.find? (fun e => decide (e.1 = k))).map (·.2)

/-- Lexicographic comparison of heap entries `(f, (x, y))`, exactly the
order Python uses on `(int, (int, int))` tuples. -/
def entryLe (a b : Nat × Pos) : Bool :=
  decide (a.1 < b.1) ||
    (decide (a.1 = b.1) &&
      (decide (a.2.1 < b.2.1) || (decide (a.2.1 = b.2.1) && decide (a.2.2 ≤ b.2.2))))

/-- `heappop`, on the multiset model of the heap: removes a least entry in
the tuple order (ties between equal tuples are interchangeable). -/
def popMin : List (Nat × Pos) → Option ((Nat × Pos) × List (Nat × Pos))
  | [] => none
  | e :: rest =>
    match popMin rest with
    | none => some (e, [])
    | some (m, r) => if entryLe e m then some (e, rest) else some (m, e :: r)

/-- The mutable search state of `a_star`. -/
structure AState where
  openSet : List (Nat × Pos)
  cameFrom : List (Pos × Pos)
  gScore : List (Pos × Nat)
  fScore : List (Pos × Nat)
  visited : Finset Pos

/-- The `while current in came_from` reconstruction loop, with fuel;
`path` accumulates goal-to-start order and is reversed by the caller. -/
def reconstructPath (cameFrom : List (Pos × Pos)) :
    Nat → Pos → List Pos → List Pos
  | 0, _, path => path
  | fuel + 1, current, path =>
    match lookupA cameFrom current with
    | some prev => reconstructPath cameFrom fuel prev (path ++ [prev])
    | none => path

/-- One pass of `a_star`'s neighbor-relaxation loop for the node
`current`. -/
def astarExpand (pf : Pathfinder) (board : Board) (goal current : Pos) :
    List (Int × Int) → AState → AState
  | [], st => st
  | (dx, dy) :: dirs, st =>
    let neighbor : Pos := (current.1 + dx, current.2 + dy)
    if pf.passable board neighbor = true then
      match lookupA st.gScore current with
      | none =>
        -- `g_score.get(current, inf) + 1` is infinite: never below any value.
        astarExpand pf board goal current dirs st
      | some g =>
        let tentative := g + 1
        let better :=
          match lookupA st.gScore neighbor with
          | none => true
          | some gn => decide (tentative < gn)
        if better then
          astarExpand pf board goal current dirs
            { openSet := st.openSet ++ [(tentative + heuristic goal neighbor, neighbor)]
              cameFrom := (neighbor, current) :: st.cameFrom
              gScore := (neighbor, tentative) :: st.gScore
              fScore := (neighbor, tentative + heuristic goal neighbor) :: st.fScore
              visited := st.visited }
        else
          astarExpand pf board goal current dirs st
    else
      astarExpand pf board goal current dirs st

/-- The `while open_set:` loop of `a_star`, with fuel (one unit per pop). -/
def astarLoop (pf : Pathfinder) (board : Board) (goal : Pos) :
    Nat → AState → Option (List Pos)
  | 0, _ => none
  | fuel + 1, st =>
    match popMin st.openSet with
    | none => none
    | some ((_, current), rest) =>
      if current ∈ st.visited then
        astarLoop pf board goal fuel { st with openSet := rest }
      else
        let st := { st with openSet := rest, visited := insert current st.visited }
        if current = goal then
          some (reconstructPath st.cameFrom (pf.width * pf.height + 2) current
            [current]).reverse
        else
          astarLoop pf board goal fuel (astarExpand pf board goal current directions st)

/-- `Pathfinder.a_star`.  The fuel bounds the number of heap pops, which
is at most one more than the number of pushes; sufficiency is proved
below. -/
def Pathfinder.a_star (pf : Pathfinder) (start goal : Pos) (board : Board) :
    Option (List Pos) :=
  if start = goal then
    some [start]
  else
    astarLoop pf board goal ((pf.width * pf.height + 1) * (pf.width * pf.height + 2) + 2)
      { openSet := [(0, start)]
        cameFrom := []
        gScore := [(start, 0)]
        fScore := [(start, heuristic goal start)]
        visited := ∅ }

/-! ## MCP server (src/MCP/server.py) -/

/-- Contiguous-sublist test on character lists (used to embed Python's
`needle in hay` on strings). -/
def listContains (needle hay : List Char) : Bool :=
  (List.range (hay.length + 1)).any (fun i => needle.isPrefixOf (hay.drop i))

/-- Python's `needle in hay` on strings (the caller lowercases `hay`
first, as the source does). -/
def strContains (hay needle : String) : Bool :=
  listContains needle.data hay.data

/-- Python's `str.lower()` (ASCII semantics, as `Char.toLower`), written
as a structural map over the character list. -/
def strToLower (s : String) : String :=
  ⟨s.data.map Char.toLower⟩

/-- `ContextAnalyzer.GITHUB_KEYWORDS`. -/
def GITHUB_KEYWORDS : List String :=
  ["github", "repo", "repository", "issue", "pr", "pull request",
   "commit", "code", "branch", "merge", "push", "pull"]

/-- `ContextAnalyzer.WEATHER_KEYWORDS`. -/
def WEATHER_KEYWORDS : List String :=
  ["weather", "temperature", "rain", "snow", "sunny", "cloudy",
   "forecast", "outside", "outdoor", "meeting outside"]

/-- `ContextAnalyzer.TIME_KEYWORDS`. -/
def TIME_KEYWORDS : List String :=
  ["today", "tomorrow", "yesterday", "now", "time", "date",
   "schedule", "deadline", "due", "when"]

/-- The dict returned by `ContextAnalyzer.analyze`. -/
structure ContextNeeds where
  github : Bool
  weather : Bool
  time : Bool
  alwaysFetchTime : Bool
  deriving DecidableEq, Repr

/-- `ContextAnalyzer.analyze`. -/
def ContextAnalyzer.analyze (query : String) : ContextNeeds :=
  let queryLower := strToLower query
  { github := GITHUB_KEYWORDS.any (fun kw => strContains queryLower kw)
    weather := WEATHER_KEYWORDS.any (fun kw => strContains queryLower kw)
    time := TIME_KEYWORDS.any (fun kw => strContains queryLower kw)
    alwaysFetchTime := true }

/-- A repository projection built by `get_user_repos`. -/
structure GHRepo where
  name : String
  description : String
  language : String
  stars : Nat
  updatedAt : String
  url : String
  deriving DecidableEq, Repr

/-- An issue projection built by `get_recent_issues`. -/
structure GHIssue where
  title : String
  number : Nat
  state : String
  repo : String
  url : String
  deriving DecidableEq, Repr

/-- A pull-request projection built by `get_recent_prs`. -/
structure GHPr where
  title : String
  number : Nat
  state : String
  repo : String
  url : String
  deriving DecidableEq, Repr

/-- The dict returned by `GitHubContextFetcher.get_context`. -/
structure GitHubContext where
  repos : List GHRepo
  issues : List GHIssue
  prs : List GHPr
  deriving DecidableEq, Repr

/-- The dict returned by `WeatherContextFetcher.get_current_weather`. -/
structure CurrentWeather where
  city : String
  temperature : Int
  feelsLike : Int
  description : String
  humidity : Nat
  windSpeed : Int
  deriving DecidableEq, Repr

/-- One entry of the list returned by `get_forecast`. -/
structure ForecastEntry where
  time : String
  temperature : Int
  description : String
  deriving DecidableEq, Repr

/-- The dict returned by `WeatherContextFetcher.get_context`. -/
structure WeatherContext where
  current : Option CurrentWeather
  forecast : List ForecastEntry
  deriving DecidableEq, Repr

/-- The dict returned by `TimeContextFetcher.get_context`. -/
structure TimeContext where
  currentTime : String
  currentDate : String
  dayOfWeek : String
  timeOfDay : String
  weekNumber : Nat
  isWeekend : Bool
  tomorrow : Option String
  yesterday : Option String
  deriving DecidableEq, Repr

/-- The dict built by `ContextAssembler.assemble_context`: the `'context'`
sub-dict is represented by the three optional fields. -/
structure ContextPackage where
  query : String
  timestamp : String
  sources : List String
  githubCtx : Option GitHubContext
  weatherCtx : Option WeatherContext
  timeCtx : Option TimeContext
  deriving DecidableEq, Repr

/-- `ContextAssembler.assemble_context`.  The three fetchers perform
network / clock I/O, so their results are oracle parameters
(`githubFetch`, `weatherFetch`, `timeFetch`); `timestamp` is the oracle
for `datetime.now().isoformat()`.  The control flow around them is the
source's. -/
def ContextAssembler.assembleContext
    (githubFetch : String → GitHubContext)
    (weatherFetch : String → WeatherContext)
    (timeFetch : String → TimeContext)
    (timestamp : String) (query : String) : ContextPackage :=
  let needs := ContextAnalyzer.analyze query
  let pkg : ContextPackage :=
    { query := query, timestamp := timestamp, sources := []
      githubCtx := none, weatherCtx := none, timeCtx := none }
  let pkg :=
    if needs.github then
      let githubCtx := githubFetch query
      if !githubCtx.repos.isEmpty || !githubCtx.issues.isEmpty || !githubCtx.prs.isEmpty then
        { pkg with sources := pkg.sources ++ ["GitHub"], githubCtx := some githubCtx }
      else pkg
    else pkg
  let pkg :=
    if needs.weather then
      let weatherCtx := weatherFetch query
      match weatherCtx.current with
      | some _ =>
        { pkg with sources := pkg.sources ++ ["Weather"], weatherCtx := some weatherCtx }
      | none => pkg
    else pkg
  if needs.time || needs.alwaysFetchTime then
    { pkg with sources := pkg.sources ++ ["Time/Date"], timeCtx := some (timeFetch query) }
  else pkg

/-- JSON values, for the HTTP layer (numbers as integers suffice for the
payloads at issue). -/
inductive Json : Type where
  | null : Json
  | bool : Bool → Json
  | num : Int → Json
  | str : String → Json
  | arr : List Json → Json
  | obj : List (String × Json) → Json

/-- Python truthiness of a JSON value (`if not query`). -/
def jsonTruthy : Json → Bool
  | .null => false
  | .bool b => b
  | .num n => !decide (n = 0)
  | .str s => !s.isEmpty
  | .arr xs => !xs.isEmpty
  | .obj kvs => !kvs.isEmpty

/-- Key lookup in a parsed JSON object (`dict.get`); the parsed dict has
unique keys, so first-match lookup is faithful. -/
def jsonLookup (kvs : List (String × Json)) (k : String) : Option Json :=
  (kvs.find? (fun e => e.1 == k)).map (·.2)

/-- An HTTP response as produced by `_send_json_response`: status code and
JSON body. -/
structure HttpResponse where
  status : Nat
  body : Json

/-- `MCPRequestHandler._send_error`. -/
def sendError (statusCode : Nat) (message : String) : HttpResponse :=
  { status := statusCode
    body := .obj [("success", .bool false), ("error", .str message)] }

/-- `MCPRequestHandler.do_POST`.

`body` is the oracle for reading and JSON-parsing the request body:
`none` models a `json.JSONDecodeError`.  `assemble` is the oracle for
`assemble_context` / `format_for_ai` applied to the query value: it
returns the structured package (as JSON), the formatted text and the
`sources` list, or the message of a raised exception; the code's
`except Exception` turns the latter into a 500.  `getAttrMsg` is the
oracle for the message of the `AttributeError` raised by `data.get` when
the parsed body is not an object. -/
def MCPRequestHandler.doPost
    (assemble : Json → Except String (Json × String × Json))
    (getAttrMsg : Json → String)
    (path : String) (body : Option Json) : HttpResponse :=
  if path ≠ "/query" then
    sendError 404 "Not Found"
  else
    match body with
    | none => sendError 400 "Invalid JSON"
    | some data =>
      match data with
      | .obj kvs =>
        let query := (jsonLookup kvs "query").getD (.str "")
        if !jsonTruthy query then
          sendError 400 "Missing 'query' field"
        else
          match assemble query with
          | .ok (contextPackage, formattedContext, sourcesUsed) =>
            { status := 200
              body := .obj
                [("success", .bool true),
                 ("query", query),
                 ("context_package", contextPackage),
                 ("formatted_context", .str formattedContext),
                 ("sources_used", sourcesUsed)] }
          | .error e => sendError 500 ("Internal Server Error: " ++ e)
      | other => sendError 500 ("Internal Server Error: " ++ getAttrMsg other)

/-- `MCPRequestHandler.do_GET`. -/
def MCPRequestHandler.doGet (path : String) : HttpResponse :=
  if path = "/health" then
    { status := 200
      body := .obj [("status", .str "healthy"),
                    ("service", .str "MCP Developer Intelligence Server")] }
  else if path = "/" then
    { status := 200
      body := .obj
        [("service", .str "Developer Intelligence MCP Server"),
         ("version", .str "1.0.0"),
         ("endpoints", .obj
           [("POST /query", .str "Submit a query to get context"),
            ("GET /health", .str "Health check endpoint")])] }
  else
    sendError 404 "Not Found"

/-! ## Raw Data numeric filter (src/maishanyun.py, tab 5) -/

/-- Minimum of a list of non-missing values (the list to which pandas'
`skipna` reduces a float column before taking `min`; finite floats are
modelled as rationals, on which pandas comparisons agree). -/
def seriesMin (col : List ℚ) : Option ℚ :=
  match col with
  | [] => none
  | x :: xs => some (xs.foldl min x)

/-- Maximum of a list of non-missing values. -/
def seriesMax (col : List ℚ) : Option ℚ :=
  match col with
  | [] => none
  | x :: xs => some (xs.foldl max x)

/-- `df[column].min()`: pandas skips `NaN` entries (`skipna=True`), so the
minimum is taken over the non-missing values; `none` when every entry is
missing (pandas would return `NaN`). -/
def seriesMinCol (col : List (Option ℚ)) : Option ℚ :=
  seriesMin (col.filterMap id)

/-- `df[column].max()`, with the same `skipna` semantics. -/
def seriesMaxCol (col : List (Option ℚ)) : Option ℚ :=
  seriesMax (col.filterMap id)

/-- The row filter `filtered_df[(df[col] >= lo) & (df[col] <= hi)]`
restricted to the filtered column's entries (row count equals length).
Every comparison against `NaN` is `False` in pandas, so a missing row
never passes the conjunction. -/
def rawDataNumericFilter (col : List (Option ℚ)) (lo hi : ℚ) : List (Option ℚ) :=
  col.filter (fun v => match v with
    | none => false
    | some x => decide (lo ≤ x) && decide (x ≤ hi))

/-! ## Specification-side predicates for the grid algorithms -/

/-- 4-adjacency: `v` is obtained from `u` by one of the four direction
deltas. -/
def nbr (u v : Pos) : Prop :=
  ∃ d ∈ directions, v = (u.1 + d.1, u.2 + d.2)

/-- One search step into a traversable cell (the edge relation explored by
`a_star` and `flood_fill`, and by `bfs` apart from its early goal
return). -/
def stepV (pf : Pathfinder) (board : Board) (u v : Pos) : Prop :=
  nbr u v ∧ pf.passable board v = true

/-- The edge relation actually traversed by `bfs`: a traversable step that
does not enter the goal (the goal triggers the early return instead of
being enqueued). -/
def stepE (pf : Pathfinder) (board : Board) (goal : Pos) (u v : Pos) : Prop :=
  stepV pf board u v ∧ v ≠ goal

/-- Walks of a given number of steps along a relation. -/
def relN (R : Pos → Pos → Prop) : Nat → Pos → Pos → Prop
  | 0, u, v => u = v
  | n + 1, u, w => ∃ v, R u v ∧ relN R n v w

/-- `n` is the least number of steps in which `b` can be reached from `a`
along `R`. -/
def MinReach (R : Pos → Pos → Prop) (a b : Pos) (n : Nat) : Prop :=
  relN R n a b ∧ ∀ k, relN R k a b → n ≤ k

/-- A queue entry's recorded path in `bfs`: starts at `start`, ends at
`c`, moves by 4-adjacency, and every cell after the start is traversable
and distinct from the goal. -/
def TrailTo (pf : Pathfinder) (board : Board) (goal start c : Pos) (p : List Pos) : Prop :=
  p.head? = some start ∧ p.getLast? = some c ∧ List.Chain' nbr p ∧
    ∀ x ∈ p.tail, pf.passable board x = true ∧ x ≠ goal

/-- A path in the sense of the specification: from `s` to `g`, 4-connected
steps, every cell (endpoints included) in bounds and empty. -/
def IsPath (pf : Pathfinder) (board : Board) (s g : Pos) (r : List Pos) : Prop :=
  r.head? = some s ∧ r.getLast? = some g ∧ List.Chain' nbr r ∧
    ∀ x ∈ r, pf.passable board x = true

/-- The in-bounds cells together with the start position (the only
positions a search can ever record). -/
def cellsPlus (pf : Pathfinder) (start : Pos) : Finset Pos :=
  insert start pf.allCells

/-- The decreasing measure of the `bfs` loop. -/
def measureB (pf : Pathfinder) (start : Pos) (queue : List (Pos × List Pos))
    (vis : Finset Pos) : Nat :=
  queue.length + (cellsPlus pf start \ vis).card

/-- The decreasing measure of the `flood_fill` loop. -/
def measureF (pf : Pathfinder) (start : Pos) (queue : List Pos)
    (vis : Finset Pos) : Nat :=
  queue.length + (cellsPlus pf start \ vis).card

/-- Loop invariant of `bfs` relating the queue and the discovered set. -/
structure BfsInv (pf : Pathfinder) (board : Board) (start goal : Pos)
    (queue : List (Pos × List Pos)) (vis : Finset Pos) : Prop where
  start_vis : start ∈ vis
  node_vis : ∀ e ∈ queue, e.1 ∈ vis
  nodes_nodup : (queue.map Prod.fst).Nodup
  entry_trail : ∀ e ∈ queue, TrailTo pf board goal start e.1 e.2 ∧
    MinReach (stepE pf board goal) start e.1 (e.2.length - 1)
  vis_reach : ∀ v ∈ vis, ∃ n, relN (stepE pf board goal) n start v
  vis_cells : ∀ v ∈ vis, v = start ∨ (pf.passable board v = true ∧ v ≠ goal)
  processed_closed : ∀ u ∈ vis, u ∉ queue.map Prod.fst →
    ∀ v, stepE pf board goal u v → v ∈ vis
  processed_nogoal : ∀ u ∈ vis, u ∉ queue.map Prod.fst →
    ∀ d ∈ directions, (u.1 + d.1, u.2 + d.2) ≠ goal
  levels_sorted : queue.Pairwise (fun a b => a.2.length ≤ b.2.length)
  levels_spread : ∀ a ∈ queue, ∀ b ∈ queue, a.2.length ≤ b.2.length + 1
  unvis_far : ∀ v, v ∉ vis → ∀ k, relN (stepE pf board goal) k start v →
    ∀ e ∈ queue, e.2.length ≤ k + 1

/-- Loop invariant of `flood_fill`. -/
structure FloodInv (pf : Pathfinder) (board : Board) (start : Pos)
    (queue : List Pos) (vis : Finset Pos) : Prop where
  start_vis : start ∈ vis
  node_vis : ∀ c ∈ queue, c ∈ vis
  vis_reach : ∀ v ∈ vis, ∃ n, relN (stepV pf board) n start v
  vis_cells : ∀ v ∈ vis, v = start ∨ pf.passable board v = true
  processed_closed : ∀ u ∈ vis, u ∉ queue → ∀ v, stepV pf board u v → v ∈ vis

/-- The chain of `came_from` links below a node, annotated with the
`g_score` recorded at each link: following predecessors from `v` reaches
`start`, the recorded `g`-values strictly increase along the chain, each
hop is a 4-adjacent move into a traversable cell. -/
inductive GTrail (pf : Pathfinder) (board : Board) (start : Pos)
    (cf : List (Pos × Pos)) (gs : List (Pos × Nat)) : Pos → Nat → List Pos → Prop
  | base (h0 : lookupA gs start = some 0) (hcf : lookupA cf start = none) :
      GTrail pf board start cf gs start 0 [start]
  | step {u v : Pos} {gu gv : Nat} {l : List Pos}
      (hg : lookupA gs v = some gv) (hcf : lookupA cf v = some u)
      (ht : GTrail pf board start cf gs u gu l) (hlt : gu < gv)
      (hnbr : nbr u v) (hpass : pf.passable board v = true) :
      GTrail pf board start cf gs v gv (l ++ [v])

/-- Loop invariant of `a_star`. -/
structure AInv (pf : Pathfinder) (board : Board) (start goal : Pos)
    (st : AState) : Prop where
  g_start : lookupA st.gScore start = some 0
  cf_start : lookupA st.cameFrom start = none
  g_trail : ∀ v gv, lookupA st.gScore v = some gv →
    ∃ l, GTrail pf board start st.cameFrom st.gScore v gv l
  g_bound : ∀ v gv, lookupA st.gScore v = some gv → gv ≤ pf.width * pf.height + 1
  g_cells : ∀ v gv, lookupA st.gScore v = some gv →
    v = start ∨ pf.passable board v = true
  vis_opt : ∀ v ∈ st.visited, ∃ gv, lookupA st.gScore v = some gv ∧
    MinReach (stepV pf board) start v gv
  vis_expanded : ∀ v ∈ st.visited, ∀ gv, lookupA st.gScore v = some gv →
    ∀ w, stepV pf board v w → ∃ gw, lookupA st.gScore w = some gw ∧ gw ≤ gv + 1
  open_entry : ∀ v gv, lookupA st.gScore v = some gv → v ∉ st.visited →
    (gv + heuristic goal v, v) ∈ st.openSet
  open_sound : ∀ e ∈ st.openSet, ∃ gv, lookupA st.gScore e.2 = some gv ∧
    gv + heuristic goal e.2 ≤ e.1

/-- Remaining-work weight of a cell in the `a_star` measure: its current
`g_score`, or a maximal value while it has none. -/
def phiG (pf : Pathfinder) (gs : List (Pos × Nat)) (v : Pos) : Nat :=
  match lookupA gs v with
  | some g => g
  | none => pf.width * pf.height + 2

/-- The decreasing measure of the `a_star` loop. -/
def measureA (pf : Pathfinder) (start : Pos) (st : AState) : Nat :=
  st.openSet.length + (cellsPlus pf start \ st.visited).sum (phiG pf st.gScore)

/-- The part of `AInv` that holds throughout the expansion of the node
`current`: every field of `AInv` except that the expansion-closure is
only required at visited nodes other than `current` (whose neighbors are
being relaxed one direction at a time). -/
structure AInvCore (pf : Pathfinder) (board : Board) (start goal current : Pos)
    (st : AState) : Prop where
  g_start : lookupA st.gScore start = some 0
  cf_start : lookupA st.cameFrom start = none
  g_trail : ∀ v gv, lookupA st.gScore v = some gv →
    ∃ l, GTrail pf board start st.cameFrom st.gScore v gv l
  g_bound : ∀ v gv, lookupA st.gScore v = some gv → gv ≤ pf.width * pf.height + 1
  g_cells : ∀ v gv, lookupA st.gScore v = some gv →
    v = start ∨ pf.passable board v = true
  vis_opt : ∀ v ∈ st.visited, ∃ gv, lookupA st.gScore v = some gv ∧
    MinReach (stepV pf board) start v gv
  vis_exp : ∀ v ∈ st.visited, v ≠ current → ∀ gv, lookupA st.gScore v = some gv →
    ∀ w, stepV pf board v w → ∃ gw, lookupA st.gScore w = some gw ∧ gw ≤ gv + 1
  open_entry : ∀ v gv, lookupA st.gScore v = some gv → v ∉ st.visited →
    (gv + heuristic goal v, v) ∈ st.openSet
  open_sound : ∀ e ∈ st.openSet, ∃ gv, lookupA st.gScore e.2 = some gv ∧
    gv + heuristic goal e.2 ≤ e.1

/-! ## Theorems: game simulator claims -/

theorem dirDelta_eq_none_iff (s : String) : dirDelta s = none ↔ s ∉ dirNames := by
  by_cases h1 : s = "up"
  · subst h1; simp [dirDelta, TronSimulator.directionsList, dirNames]
  by_cases h2 : s = "down"
  · subst h2; simp [dirDelta, TronSimulator.directionsList, dirNames]
  by_cases h3 : s = "left"
  · subst h3; simp [dirDelta, TronSimulator.directionsList, dirNames]
  by_cases h4 : s = "right"
  · subst h4; simp [dirDelta, TronSimulator.directionsList, dirNames]
  have e1 : ("up" == s) = false := beq_eq_false_iff_ne.mpr fun h => h1 h.symm
  have e2 : ("down" == s) = false := beq_eq_false_iff_ne.mpr fun h => h2 h.symm
  have e3 : ("left" == s) = false := beq_eq_false_iff_ne.mpr fun h => h3 h.symm
  have e4 : ("right" == s) = false := beq_eq_false_iff_ne.mpr fun h => h4 h.symm
  simp [dirDelta, TronSimulator.directionsList, dirNames, List.find?, e1, e2, e3, e4,
    h1, h2, h3, h4]

/-- C4: once the game is terminal, `make_move` returns the stored winner
and leaves the whole simulator state unchanged. -/
theorem makeMove_terminal_frame (pick : List String → String) (sim : TronSimulator)
    (myDirection : String) (oppDirectionArg : Option String)
    (h : sim.gameOver = true) :
    sim.makeMove pick myDirection oppDirectionArg = some (sim.winner, sim) := by
  unfold TronSimulator.makeMove
  simp [h]

/-- Witness for `makeMove_terminal_frame` at a concrete terminal state. -/
theorem makeMove_terminal_frame_witness :
    ({ width := 2, height := 2, board := [[1, 1], [1, 0]], myPos := (0, 0),
        oppPos := (1, 0), myTrail := [(0, 0)], oppTrail := [(1, 0)], turn := 3,
        gameOver := true, winner := some "win",
        oppLastDir := none } : TronSimulator).gameOver = true ∧
    TronSimulator.makeMove (fun _ => "up")
      { width := 2, height := 2, board := [[1, 1], [1, 0]], myPos := (0, 0),
        oppPos := (1, 0), myTrail := [(0, 0)], oppTrail := [(1, 0)], turn := 3,
        gameOver := true, winner := some "win", oppLastDir := none } "left" none =
      some (some "win",
        { width := 2, height := 2, board := [[1, 1], [1, 0]], myPos := (0, 0),
          oppPos := (1, 0), myTrail := [(0, 0)], oppTrail := [(1, 0)], turn := 3,
          gameOver := true, winner := some "win", oppLastDir := none }) :=
  ⟨rfl, makeMove_terminal_frame (fun _ => "up") _ "left" none rfl⟩

/-- C3: on a non-terminated game, if both computed destinations coincide,
or the two destinations are a head-on swap of the two origins, the result
is a draw, regardless of the validity of either move. -/
theorem makeMove_draw_precedence (pick : List String → String) (sim : TronSimulator)
    (myDirection oppDirection : String) (myD oppD : Int × Int)
    (hng : sim.gameOver = false)
    (hmy : dirDelta myDirection = some myD)
    (hopp : dirDelta oppDirection = some oppD)
    (hcol :
      ((sim.myPos.1 + myD.1, sim.myPos.2 + myD.2) : Pos) =
          (sim.oppPos.1 + oppD.1, sim.oppPos.2 + oppD.2) ∨
        (((sim.myPos.1 + myD.1, sim.myPos.2 + myD.2) : Pos) = sim.oppPos ∧
          ((sim.oppPos.1 + oppD.1, sim.oppPos.2 + oppD.2) : Pos) = sim.myPos)) :
    ∃ sim', sim.makeMove pick myDirection (some oppDirection) = some (some "draw", sim') ∧
      sim'.winner = some "draw" ∧ sim'.gameOver = true := by
  unfold TronSimulator.makeMove
  refine ⟨{ sim with
      turn := sim.turn + 1
      oppLastDir := some oppDirection
      gameOver := true
      winner := some "draw" }, ?_, rfl, rfl⟩
  rcases hcol with hcol | ⟨hcol1, hcol2⟩
  · simp [hng, hmy, hopp, hcol]
  · by_cases hsame :
      ((sim.myPos.1 + myD.1, sim.myPos.2 + myD.2) : Pos) =
        (sim.oppPos.1 + oppD.1, sim.oppPos.2 + oppD.2)
    · simp [hng, hmy, hopp, hsame]
    · simp [hng, hmy, hopp, hsame, hcol1, hcol2]

/-- Witness for `makeMove_draw_precedence`: a same-cell collision. -/
theorem makeMove_draw_precedence_witness :
    ∃ sim', TronSimulator.makeMove (fun _ => "up")
      { width := 4, height := 4, board := [[0,0,0,0],[0,1,0,1],[0,0,0,0],[0,0,0,0]],
        myPos := (0, 2), oppPos := (2, 2), myTrail := [(0, 2)], oppTrail := [(2, 2)],
        turn := 0, gameOver := false, winner := none, oppLastDir := none }
      "right" (some "left") = some (some "draw", sim') ∧
      sim'.winner = some "draw" ∧ sim'.gameOver = true :=
  makeMove_draw_precedence (fun _ => "up") _ "right" "left" (1, 0) (-1, 0)
    rfl rfl rfl (Or.inl (by decide))

/-- C10: `make_move` on a non-terminated game raises a `KeyError` (modelled
as `none`) when either direction string is not one of the four known
directions, while `is_valid_move` merely returns `false` on such a
direction. -/
theorem makeMove_invalid_direction_keyerror (pick : List String → String)
    (sim : TronSimulator) (s d : String)
    (hng : sim.gameOver = false) (hbad : s ∉ dirNames) (hd : d ∈ dirNames) :
    sim.makeMove pick s (some d) = none ∧
    sim.makeMove pick d (some s) = none ∧
    ∀ position : Pos, sim.isValidMove position s = false := by
  have hnone : dirDelta s = none := (dirDelta_eq_none_iff s).mpr hbad
  have hsome : ∃ dd, dirDelta d = some dd := by
    simp only [dirNames, List.mem_cons, List.mem_singleton] at hd
    rcases hd with rfl | rfl | rfl | hd
    · exact ⟨_, rfl⟩
    · exact ⟨_, rfl⟩
    · exact ⟨_, rfl⟩
    · rcases hd with rfl | hd
      · exact ⟨_, rfl⟩
      · simp at hd
  obtain ⟨dd, hdd⟩ := hsome
  refine ⟨?_, ?_, ?_⟩
  · unfold TronSimulator.makeMove
    simp [hng, hnone]
  · unfold TronSimulator.makeMove
    simp [hng, hnone, hdd]
  · intro position
    unfold TronSimulator.isValidMove
    simp [hnone]

/-- Witness for `makeMove_invalid_direction_keyerror` with the unknown
direction "north". -/
theorem makeMove_invalid_direction_keyerror_witness :
    TronSimulator.makeMove (fun _ => "up")
      { width := 3, height := 3, board := [[0,0,0],[0,1,0],[0,0,0]],
        myPos := (0, 0), oppPos := (2, 2), myTrail := [(0, 0)], oppTrail := [(2, 2)],
        turn := 0, gameOver := false, winner := none, oppLastDir := none }
      "north" (some "up") = none ∧
    TronSimulator.makeMove (fun _ => "up")
      { width := 3, height := 3, board := [[0,0,0],[0,1,0],[0,0,0]],
        myPos := (0, 0), oppPos := (2, 2), myTrail := [(0, 0)], oppTrail := [(2, 2)],
        turn := 0, gameOver := false, winner := none, oppLastDir := none }
      "up" (some "north") = none ∧
    ∀ position : Pos,
      TronSimulator.isValidMove
        { width := 3, height := 3, board := [[0,0,0],[0,1,0],[0,0,0]],
          myPos := (0, 0), oppPos := (2, 2), myTrail := [(0, 0)], oppTrail := [(2, 2)],
          turn := 0, gameOver := false, winner := none, oppLastDir := none }
        position "north" = false :=
  makeMove_invalid_direction_keyerror (fun _ => "up") _ "north" "up" rfl
    (by decide) (by decide)

/-! ## Theorems: MCP server claims -/

theorem strContains_iff (hay needle : String) :
    strContains hay needle = true ↔ needle.data <:+: hay.data := by
  unfold strContains listContains
  rw [List.any_eq_true]
  constructor
  · rintro ⟨i, _, hpre⟩
    exact (List.isPrefixOf_iff_prefix.mp hpre).isInfix.trans
      (List.drop_suffix i hay.data).isInfix
  · rintro ⟨s, t, hst⟩
    refine ⟨s.length, List.mem_range.mpr ?_, ?_⟩
    · have hlen : (s ++ needle.data ++ t).length = hay.data.length := by rw [hst]
      simp only [List.length_append] at hlen
      omega
    · rw [List.isPrefixOf_iff_prefix, ← hst, List.append_assoc, List.drop_left]
      exact ⟨t, rfl⟩

theorem analyze_github_eq (q : String) :
    (ContextAnalyzer.analyze q).github =
      GITHUB_KEYWORDS.any (fun kw => strContains (strToLower q) kw) := rfl

theorem analyze_weather_eq (q : String) :
    (ContextAnalyzer.analyze q).weather =
      WEATHER_KEYWORDS.any (fun kw => strContains (strToLower q) kw) := rfl

theorem analyze_time_eq (q : String) :
    (ContextAnalyzer.analyze q).time =
      TIME_KEYWORDS.any (fun kw => strContains (strToLower q) kw) := rfl

theorem analyze_always_eq (q : String) :
    (ContextAnalyzer.analyze q).alwaysFetchTime = true := rfl

/-- C7: each flag of `analyze` is set iff some keyword of the
corresponding fixed list occurs as a substring of the lowercased query;
`always_fetch_time` is unconditionally true; and the two example queries
classify as stated. -/
theorem analyze_keyword_spec :
    (∀ q : String,
      ((ContextAnalyzer.analyze q).github = true ↔
        ∃ kw ∈ GITHUB_KEYWORDS, kw.data <:+: (strToLower q).data) ∧
      ((ContextAnalyzer.analyze q).weather = true ↔
        ∃ kw ∈ WEATHER_KEYWORDS, kw.data <:+: (strToLower q).data) ∧
      ((ContextAnalyzer.analyze q).time = true ↔
        ∃ kw ∈ TIME_KEYWORDS, kw.data <:+: (strToLower q).data) ∧
      (ContextAnalyzer.analyze q).alwaysFetchTime = true) ∧
    ContextAnalyzer.analyze "What day is it today?" =
      { github := false, weather := false, time := true, alwaysFetchTime := true } ∧
    ContextAnalyzer.analyze "What's the weather forecast for tomorrow and what day is it?" =
      { github := false, weather := true, time := true, alwaysFetchTime := true } := by
  refine ⟨fun q => ⟨?_, ?_, ?_, rfl⟩, by decide, by decide⟩
  · rw [analyze_github_eq, List.any_eq_true]
    exact ⟨fun ⟨kw, hkw, hc⟩ => ⟨kw, hkw, (strContains_iff _ _).mp hc⟩,
      fun ⟨kw, hkw, hc⟩ => ⟨kw, hkw, (strContains_iff _ _).mpr hc⟩⟩
  · rw [analyze_weather_eq, List.any_eq_true]
    exact ⟨fun ⟨kw, hkw, hc⟩ => ⟨kw, hkw, (strContains_iff _ _).mp hc⟩,
      fun ⟨kw, hkw, hc⟩ => ⟨kw, hkw, (strContains_iff _ _).mpr hc⟩⟩
  · rw [analyze_time_eq, List.any_eq_true]
    exact ⟨fun ⟨kw, hkw, hc⟩ => ⟨kw, hkw, (strContains_iff _ _).mp hc⟩,
      fun ⟨kw, hkw, hc⟩ => ⟨kw, hkw, (strContains_iff _ _).mpr hc⟩⟩

/-- C5: the `sources` list of an assembled context package is exactly the
GitHub entry (present iff the github flag fired and the fetch produced at
least one non-empty list), then the Weather entry (present iff the
weather flag fired and current weather was obtained), then the
unconditional Time/Date entry. -/
theorem assembleContext_sources_spec
    (githubFetch : String → GitHubContext) (weatherFetch : String → WeatherContext)
    (timeFetch : String → TimeContext) (timestamp query : String) :
    (ContextAssembler.assembleContext githubFetch weatherFetch timeFetch
        timestamp query).sources =
      (if (ContextAnalyzer.analyze query).github = true ∧
          ((githubFetch query).repos ≠ [] ∨ (githubFetch query).issues ≠ [] ∨
            (githubFetch query).prs ≠ []) then ["GitHub"] else []) ++
      (if (ContextAnalyzer.analyze query).weather = true ∧
          (weatherFetch query).current.isSome = true then ["Weather"] else []) ++
      ["Time/Date"] ∧
    "Time/Date" ∈ (ContextAssembler.assembleContext githubFetch weatherFetch timeFetch
        timestamp query).sources ∧
    ("GitHub" ∈ (ContextAssembler.assembleContext githubFetch weatherFetch timeFetch
        timestamp query).sources →
      (githubFetch query).repos ≠ [] ∨ (githubFetch query).issues ≠ [] ∨
        (githubFetch query).prs ≠ []) ∧
    ("Weather" ∈ (ContextAssembler.assembleContext githubFetch weatherFetch timeFetch
        timestamp query).sources → (weatherFetch query).current.isSome = true) := by
  have hmain : (ContextAssembler.assembleContext githubFetch weatherFetch timeFetch
        timestamp query).sources =
      (if (ContextAnalyzer.analyze query).github = true ∧
          ((githubFetch query).repos ≠ [] ∨ (githubFetch query).issues ≠ [] ∨
            (githubFetch query).prs ≠ []) then ["GitHub"] else []) ++
      (if (ContextAnalyzer.analyze query).weather = true ∧
          (weatherFetch query).current.isSome = true then ["Weather"] else []) ++
      ["Time/Date"] := by
    cases hgb : (ContextAnalyzer.analyze query).github <;>
      cases hwb : (ContextAnalyzer.analyze query).weather <;>
      rcases hre : (githubFetch query).repos with _ | ⟨r, rs⟩ <;>
      rcases his : (githubFetch query).issues with _ | ⟨i, iss⟩ <;>
      rcases hpr : (githubFetch query).prs with _ | ⟨p, ps⟩ <;>
      rcases hcw : (weatherFetch query).current with _ | c <;>
      simp [ContextAssembler.assembleContext, hgb, hwb, hre, his, hpr, hcw,
        analyze_always_eq]
  refine ⟨hmain, ?_, ?_, ?_⟩
  · rw [hmain]; simp
  · rw [hmain]; intro hmem
    split_ifs at hmem with h1 h2
    · exact h1.2
    · exact h1.2
    · simp at hmem
    · simp at hmem
  · rw [hmain]; intro hmem
    by_cases h2 : (ContextAnalyzer.analyze query).weather = true ∧
        (weatherFetch query).current.isSome = true
    · exact h2.2
    · rw [if_neg h2] at hmem
      by_cases h1 : (ContextAnalyzer.analyze query).github = true ∧
          ((githubFetch query).repos ≠ [] ∨ (githubFetch query).issues ≠ [] ∨
            (githubFetch query).prs ≠ [])
      · rw [if_pos h1] at hmem; simp at hmem
      · rw [if_neg h1] at hmem; simp at hmem

/-- C6: `/query` rejects a malformed body and a missing or empty `query`
field with a 400 error payload carrying `success: false`, and `/health`
answers 200 with the fixed health payload. -/
theorem server_http_error_contract
    (assemble : Json → Except String (Json × String × Json))
    (getAttrMsg : Json → String) (kvs : List (String × Json)) :
    MCPRequestHandler.doPost assemble getAttrMsg "/query" none =
      sendError 400 "Invalid JSON" ∧
    (jsonLookup kvs "query" = none →
      MCPRequestHandler.doPost assemble getAttrMsg "/query" (some (.obj kvs)) =
        sendError 400 "Missing 'query' field") ∧
    (jsonLookup kvs "query" = some (.str "") →
      MCPRequestHandler.doPost assemble getAttrMsg "/query" (some (.obj kvs)) =
        sendError 400 "Missing 'query' field") ∧
    (∀ code msg, (sendError code msg).status = code ∧
      (sendError code msg).body =
        .obj [("success", .bool false), ("error", .str msg)]) ∧
    MCPRequestHandler.doGet "/health" =
      { status := 200
        body := .obj [("status", .str "healthy"),
                      ("service", .str "MCP Developer Intelligence Server")] } := by
  refine ⟨?_, ?_, ?_, fun code msg => ⟨rfl, rfl⟩, ?_⟩
  · simp [MCPRequestHandler.doPost]
  · intro h
    simp [MCPRequestHandler.doPost, h, jsonTruthy, String.isEmpty]
  · intro h
    simp [MCPRequestHandler.doPost, h, jsonTruthy, String.isEmpty]
  · simp [MCPRequestHandler.doGet]

/-- Witness for `server_http_error_contract` at concrete requests. -/
theorem server_http_error_contract_witness :
    MCPRequestHandler.doPost (fun _ => Except.error "") (fun _ => "") "/query"
        (some (.obj [("query", .str "")])) = sendError 400 "Missing 'query' field" ∧
    MCPRequestHandler.doPost (fun _ => Except.error "") (fun _ => "") "/query"
        (some (.obj [])) = sendError 400 "Missing 'query' field" ∧
    MCPRequestHandler.doPost (fun _ => Except.error "") (fun _ => "") "/query" none =
      sendError 400 "Invalid JSON" :=
  ⟨(server_http_error_contract (fun _ => Except.error "") (fun _ => "")
      [("query", .str "")]).2.2.1 rfl,
   (server_http_error_contract (fun _ => Except.error "") (fun _ => "") []).2.1 rfl,
   (server_http_error_contract (fun _ => Except.error "") (fun _ => "") []).1⟩

/-! ## Theorems: dashboard Raw Data filter claim -/

theorem foldl_min_le (xs : List ℚ) (a : ℚ) :
    xs.foldl min a ≤ a ∧ ∀ b ∈ xs, xs.foldl min a ≤ b := by
  induction xs generalizing a with
  | nil => simp
  | cons x t ih =>
    refine ⟨?_, ?_⟩
    · calc (x :: t).foldl min a = t.foldl min (min a x) := rfl
        _ ≤ min a x := (ih _).1
        _ ≤ a := min_le_left _ _
    · intro b hb
      rcases List.mem_cons.mp hb with rfl | hb
      · calc (b :: t).foldl min a = t.foldl min (min a b) := rfl
          _ ≤ min a b := (ih _).1
          _ ≤ b := min_le_right _ _
      · exact (ih _).2 b hb

theorem le_foldl_max (xs : List ℚ) (a : ℚ) :
    a ≤ xs.foldl max a ∧ ∀ b ∈ xs, b ≤ xs.foldl max a := by
  induction xs generalizing a with
  | nil => simp
  | cons x t ih =>
    refine ⟨?_, ?_⟩
    · calc a ≤ max a x := le_max_left _ _
        _ ≤ t.foldl max (max a x) := (ih _).1
        _ = (x :: t).foldl max a := rfl
    · intro b hb
      rcases List.mem_cons.mp hb with rfl | hb
      · calc b ≤ max a b := le_max_right _ _
          _ ≤ t.foldl max (max a b) := (ih _).1
          _ = (b :: t).foldl max a := rfl
      · exact (ih _).2 b hb

theorem seriesMin_le (col : List ℚ) (lo : ℚ) (h : seriesMin col = some lo) :
    ∀ v ∈ col, lo ≤ v := by
  match col with
  | [] => simp [seriesMin] at h
  | x :: xs =>
    simp only [seriesMin, Option.some.injEq] at h
    subst h
    intro v hv
    rcases List.mem_cons.mp hv with rfl | hv
    · exact (foldl_min_le xs v).1
    · exact (foldl_min_le xs x).2 v hv

theorem seriesMax_ge (col : List ℚ) (hi : ℚ) (h : seriesMax col = some hi) :
    ∀ v ∈ col, v ≤ hi := by
  match col with
  | [] => simp [seriesMax] at h
  | x :: xs =>
    simp only [seriesMax, Option.some.injEq] at h
    subst h
    intro v hv
    rcases List.mem_cons.mp hv with rfl | hv
    · exact (le_foldl_max xs v).1
    · exact (le_foldl_max xs x).2 v hv

/-- **C9 (counterexample to the original claim).** On a numeric column with
one missing value — `[1, NaN, 3]` — the slider bounds are the actual min `1`
and max `3` (pandas `min`/`max` skip `NaN`), yet the full-span filter keeps
only 2 of the 3 rows: the `NaN` row fails both inclusive comparisons. -/
theorem rawData_filter_nan_counterexample :
    seriesMinCol [some 1, none, some 3] = some 1 ∧
    seriesMaxCol [some 1, none, some 3] = some 3 ∧
    (rawDataNumericFilter [some 1, none, some 3] 1 3).length = 2 ∧
    ([some 1, none, some 3] : List (Option ℚ)).length = 3 :=
  ⟨by decide, by decide, by decide, rfl⟩

/-- **C9 (amended).** The Raw Data numeric filter is inclusive on both ends
and, with the range set to the column's actual span, keeps exactly the
non-missing rows: the filtered rows equal the rows whose value is not `NaN`;
in particular the filter returns all rows iff the column has no missing
values. -/
theorem rawData_filter_full_span_amended (col : List (Option ℚ)) (lo hi : ℚ)
    (hlo : seriesMinCol col = some lo) (hhi : seriesMaxCol col = some hi) :
    rawDataNumericFilter col lo hi = col.filter (fun v => v.isSome) ∧
    (rawDataNumericFilter col lo hi = col ↔ ∀ v ∈ col, v.isSome = true) := by
  have hbound : ∀ x : ℚ, some x ∈ col → lo ≤ x ∧ x ≤ hi := by
    intro x hx
    have hxv : x ∈ col.filterMap id := List.mem_filterMap.mpr ⟨some x, hx, rfl⟩
    exact ⟨seriesMin_le (col.filterMap id) lo hlo x hxv,
      seriesMax_ge (col.filterMap id) hi hhi x hxv⟩
  have hfix : rawDataNumericFilter col lo hi = col.filter (fun v => v.isSome) := by
    unfold rawDataNumericFilter
    refine List.filter_congr ?_
    intro v hv
    cases v with
    | none => rfl
    | some x =>
      obtain ⟨h1, h2⟩ := hbound x hv
      simp [h1, h2]
  refine ⟨hfix, ?_⟩
  rw [hfix]
  exact List.filter_eq_self

/-- Witness for `rawData_filter_full_span_amended` on a concrete
`NaN`-free column. -/
theorem rawData_filter_full_span_amended_witness :
    rawDataNumericFilter [some 1, some 2] 1 2 =
      ([some 1, some 2] : List (Option ℚ)).filter (fun v => v.isSome) ∧
    (rawDataNumericFilter [some 1, some 2] 1 2 = [some 1, some 2] ↔
      ∀ v ∈ ([some 1, some 2] : List (Option ℚ)), v.isSome = true) :=
  rawData_filter_full_span_amended [some 1, some 2] 1 2 (by decide) (by decide)

/-! ## Theorems: walk toolbox for the grid algorithms -/

theorem relN_refl (R : Pos → Pos → Prop) (a : Pos) : relN R 0 a a := rfl

theorem relN_single {R : Pos → Pos → Prop} {a b : Pos} (h : R a b) : relN R 1 a b :=
  ⟨b, h, rfl⟩

theorem relN_trans {R : Pos → Pos → Prop} :
    ∀ {m n : Nat} {a b c : Pos}, relN R m a b → relN R n b c → relN R (m + n) a c := by
  intro m
  induction m with
  | zero =>
    intro n a b c h1 h2
    have hab : a = b := h1
    rw [Nat.zero_add]
    exact hab ▸ h2
  | succ m ih =>
    intro n a b c h1 h2
    obtain ⟨v, hv, hrest⟩ := h1
    rw [Nat.succ_add]
    exact ⟨v, hv, ih hrest h2⟩

theorem relN_snoc {R : Pos → Pos → Prop} :
    ∀ {n : Nat} {a c : Pos}, relN R (n + 1) a c ↔ ∃ b, relN R n a b ∧ R b c := by
  intro n
  induction n with
  | zero =>
    intro a c
    constructor
    · rintro ⟨b, hab, hbc⟩
      have hbc' : b = c := hbc
      exact ⟨a, rfl, hbc' ▸ hab⟩
    · rintro ⟨b, hab, hbc⟩
      have hab' : a = b := hab
      exact ⟨c, hab' ▸ hbc, rfl⟩
  | succ n ih =>
    intro a c
    constructor
    · rintro ⟨v, hav, hrest⟩
      obtain ⟨b, hvb, hbc⟩ := ih.mp hrest
      exact ⟨b, ⟨v, hav, hvb⟩, hbc⟩
    · rintro ⟨b, ⟨v, hav, hvb⟩, hbc⟩
      exact ⟨v, hav, ih.mpr ⟨b, hvb, hbc⟩⟩

theorem relN_split {R : Pos → Pos → Prop} :
    ∀ {m n : Nat} {a c : Pos}, relN R (m + n) a c → ∃ b, relN R m a b ∧ relN R n b c := by
  intro m
  induction m with
  | zero =>
    intro n a c h
    rw [Nat.zero_add] at h
    exact ⟨a, rfl, h⟩
  | succ m ih =>
    intro n a c h
    rw [Nat.succ_add] at h
    obtain ⟨v, hav, hrest⟩ := h
    obtain ⟨b, hvb, hbc⟩ := ih hrest
    exact ⟨b, ⟨v, hav, hvb⟩, hbc⟩

theorem relN_mono {R S : Pos → Pos → Prop} (hRS : ∀ u v, R u v → S u v) :
    ∀ {n : Nat} {a b : Pos}, relN R n a b → relN S n a b := by
  intro n
  induction n with
  | zero => intro a b h; exact h
  | succ n ih =>
    intro a b h
    obtain ⟨v, hv, hrest⟩ := h
    exact ⟨v, hRS _ _ hv, ih hrest⟩

theorem exists_minReach {R : Pos → Pos → Prop} {a b : Pos} (h : ∃ n, relN R n a b) :
    ∃ m, MinReach R a b m := by
  obtain ⟨n, hn⟩ := h
  have hne : Set.Nonempty {k | relN R k a b} := ⟨n, hn⟩
  have hmem : sInf {k | relN R k a b} ∈ {k | relN R k a b} := Nat.sInf_mem hne
  simp only [Set.mem_setOf_eq] at hmem
  exact ⟨sInf {k | relN R k a b}, hmem,
    fun k hk => Nat.sInf_le (show k ∈ {k | relN R k a b} from hk)⟩

theorem minReach_unique {R : Pos → Pos → Prop} {a b : Pos} {m m' : Nat}
    (h : MinReach R a b m) (h' : MinReach R a b m') : m = m' :=
  Nat.le_antisymm (h.2 m' h'.1) (h'.2 m h.1)

theorem relN_to_chain {R : Pos → Pos → Prop} :
    ∀ {n : Nat} {a b : Pos}, relN R n a b →
      ∃ l : List Pos, l.length = n + 1 ∧ l.head? = some a ∧ l.getLast? = some b ∧
        List.Chain' R l ∧ ∀ x ∈ l, x = a ∨ ∃ u, R u x := by
  intro n
  induction n with
  | zero =>
    intro a b h
    have hab : a = b := h
    subst hab
    exact ⟨[a], rfl, rfl, rfl, List.chain'_singleton a, by simp⟩
  | succ n ih =>
    intro a b h
    obtain ⟨v, hav, hrest⟩ := h
    obtain ⟨l, hlen, hh, hl, hc, hm⟩ := ih hrest
    cases l with
    | nil => simp at hlen
    | cons x t =>
      have hxv : x = v := by simpa using hh
      subst hxv
      refine ⟨a :: x :: t, by simp [hlen.symm], rfl, ?_, ?_, ?_⟩
      · rw [List.getLast?_cons_cons]
        exact hl
      · exact List.chain'_cons.mpr ⟨hav, hc⟩
      · intro y hy
        rcases List.mem_cons.mp hy with rfl | hy
        · exact Or.inl rfl
        · rcases hm y hy with rfl | hex
          · exact Or.inr ⟨a, hav⟩
          · exact Or.inr hex

theorem chain_to_relN {R : Pos → Pos → Prop} :
    ∀ (l : List Pos) {a b : Pos}, l.head? = some a → l.getLast? = some b →
      List.Chain' R l → relN R (l.length - 1) a b := by
  intro l
  induction l with
  | nil => intro a b hh; simp at hh
  | cons x t ih =>
    intro a b hh hl hc
    have hxa : x = a := by simpa using hh
    subst hxa
    cases t with
    | nil =>
      have hab : x = b := by simpa using hl
      exact hab ▸ relN_refl R x
    | cons y s =>
      have hc' := List.chain'_cons.mp hc
      have hl' : (y :: s).getLast? = some b := by
        rw [List.getLast?_cons_cons] at hl
        exact hl
      have hrest := ih (a := y) rfl hl' hc'.2
      exact ⟨y, hc'.1, hrest⟩

theorem not_nodup_split {l : List Pos} (h : ¬ l.Nodup) :
    ∃ (x : Pos) (l₁ l₂ l₃ : List Pos), l = l₁ ++ x :: l₂ ++ x :: l₃ := by
  induction l with
  | nil => exact absurd List.nodup_nil h
  | cons a t ih =>
    by_cases ha : a ∈ t
    · obtain ⟨s, u, rfl⟩ := List.append_of_mem ha
      exact ⟨a, [], s, u, rfl⟩
    · have hnt : ¬ t.Nodup := fun ht => h (List.nodup_cons.mpr ⟨ha, ht⟩)
      obtain ⟨x, l₁, l₂, l₃, rfl⟩ := ih hnt
      exact ⟨x, a :: l₁, l₂, l₃, rfl⟩

theorem chain_shorten {R : Pos → Pos → Prop} :
    ∀ (n : Nat) (l : List Pos) {a b : Pos}, l.length ≤ n → l.head? = some a →
      l.getLast? = some b → List.Chain' R l →
      ∃ l', l'.Nodup ∧ l'.head? = some a ∧ l'.getLast? = some b ∧
        List.Chain' R l' ∧ ∀ x ∈ l', x ∈ l := by
  intro n
  induction n with
  | zero =>
    intro l a b hlen hh _ _
    have hnil : l = [] := List.length_eq_zero.mp (Nat.le_zero.mp hlen)
    subst hnil
    simp at hh
  | succ n ih =>
    intro l a b hlen hh hl hc
    by_cases hd : l.Nodup
    · exact ⟨l, hd, hh, hl, hc, fun x hx => hx⟩
    · obtain ⟨x, l₁, l₂, l₃, rfl⟩ := not_nodup_split hd
      have hsplit1 := List.chain'_append.mp hc
      have hsplitA := List.chain'_append.mp hsplit1.1
      have hshortchain : List.Chain' R (l₁ ++ x :: l₃) := by
        refine List.chain'_append.mpr ⟨hsplitA.1, hsplit1.2.1, ?_⟩
        intro u hu y hy
        have hy' : x = y := by simpa using hy
        subst hy'
        exact hsplitA.2.2 u hu x (by simp)
      have hhead : (l₁ ++ x :: l₃).head? = some a := by
        rcases l₁ with _ | ⟨z, zs⟩
        · simpa using hh
        · simpa using hh
      have hlast : (l₁ ++ x :: l₃).getLast? = some b := by
        rw [List.getLast?_append_of_ne_nil _ (by simp)] at hl
        rw [List.getLast?_append_of_ne_nil _ (by simp)]
        exact hl
      have hlen' : (l₁ ++ x :: l₃).length ≤ n := by
        simp only [List.length_append, List.length_cons] at hlen ⊢
        omega
      obtain ⟨l', hnd, hh', hl'2, hc', hsub⟩ := ih _ hlen' hhead hlast hshortchain
      refine ⟨l', hnd, hh', hl'2, hc', ?_⟩
      intro y hy
      have := hsub y hy
      simp only [List.mem_append, List.mem_cons] at this ⊢
      tauto

theorem minReach_le_card {R : Pos → Pos → Prop} {S : Finset Pos} {a b : Pos} {m : Nat}
    (hmr : MinReach R a b m) (ha : a ∈ S) (hR : ∀ u v, R u v → v ∈ S) :
    m + 1 ≤ S.card := by
  obtain ⟨hwalk, hmin⟩ := hmr
  obtain ⟨l, hlen, hh, hl, hc, hmem⟩ := relN_to_chain hwalk
  obtain ⟨l', hnd, hh', hl', hc', hsub⟩ := chain_shorten l.length l le_rfl hh hl hc
  have hS : ∀ x ∈ l', x ∈ S := by
    intro x hx
    rcases hmem x (hsub x hx) with rfl | ⟨u, hu⟩
    · exact ha
    · exact hR _ _ hu
  have hlen1 : 1 ≤ l'.length := by
    cases l' with
    | nil => simp at hh'
    | cons z zs => simp
  have hcard : l'.length ≤ S.card := by
    classical
    calc l'.length = l'.toFinset.card := (List.toFinset_card_of_nodup hnd).symm
      _ ≤ S.card := Finset.card_le_card fun x hx => hS x (List.mem_toFinset.mp hx)
  have hm' : m ≤ l'.length - 1 := hmin _ (chain_to_relN l' hh' hl' hc')
  omega

/-! ## Theorems: grid geometry -/

theorem inBounds_iff {pf : Pathfinder} {p : Pos} :
    pf.inBounds p = true ↔
      0 ≤ p.1 ∧ p.1 < (pf.width : Int) ∧ 0 ≤ p.2 ∧ p.2 < (pf.height : Int) := by
  unfold Pathfinder.inBounds
  simp only [Bool.and_eq_true, decide_eq_true_eq]
  tauto

theorem mem_allCells {pf : Pathfinder} {p : Pos} :
    p ∈ pf.allCells ↔ pf.inBounds p = true := by
  obtain ⟨px, py⟩ := p
  rw [inBounds_iff]
  unfold Pathfinder.allCells
  simp only [Finset.mem_image, Finset.mem_product, Finset.mem_range, Prod.exists,
    Prod.mk.injEq]
  constructor
  · rintro ⟨i, j, ⟨hi, hj⟩, rfl, rfl⟩
    refine ⟨Int.natCast_nonneg i, by exact_mod_cast hi, Int.natCast_nonneg j,
      by exact_mod_cast hj⟩
  · rintro ⟨h1, h2, h3, h4⟩
    refine ⟨px.toNat, py.toNat, ⟨?_, ?_⟩, ?_, ?_⟩ <;> omega

theorem card_allCells (pf : Pathfinder) : pf.allCells.card = pf.width * pf.height := by
  have hinj : Function.Injective (fun q : Nat × Nat => (((q.1 : Int), (q.2 : Int)) : Pos)) := by
    rintro ⟨a1, a2⟩ ⟨b1, b2⟩ hab
    simp only [Prod.mk.injEq] at hab
    exact Prod.ext (by exact_mod_cast hab.1) (by exact_mod_cast hab.2)
  unfold Pathfinder.allCells
  rw [Finset.card_image_of_injective _ hinj, Finset.card_product, Finset.card_range,
    Finset.card_range]

theorem passable_inBounds {pf : Pathfinder} {board : Board} {p : Pos}
    (h : pf.passable board p = true) : pf.inBounds p = true := by
  simp only [Pathfinder.passable, Bool.and_eq_true] at h
  exact h.1

theorem passable_cell {pf : Pathfinder} {board : Board} {p : Pos}
    (h : pf.passable board p = true) : cellAt board p = 0 := by
  simp only [Pathfinder.passable, Bool.and_eq_true, decide_eq_true_eq] at h
  exact h.2

theorem passable_of {pf : Pathfinder} {board : Board} {p : Pos}
    (h1 : pf.inBounds p = true) (h2 : cellAt board p = 0) :
    pf.passable board p = true := by
  unfold Pathfinder.passable
  rw [h1, h2]
  rfl

theorem mem_cellsPlus_of_passable {pf : Pathfinder} {board : Board} {start p : Pos}
    (h : pf.passable board p = true) : p ∈ cellsPlus pf start :=
  Finset.mem_insert_of_mem (mem_allCells.mpr (passable_inBounds h))

theorem start_mem_cellsPlus (pf : Pathfinder) (start : Pos) :
    start ∈ cellsPlus pf start := Finset.mem_insert_self _ _

theorem card_cellsPlus_le (pf : Pathfinder) (start : Pos) :
    (cellsPlus pf start).card ≤ pf.width * pf.height + 1 := by
  unfold cellsPlus
  calc (insert start pf.allCells).card ≤ pf.allCells.card + 1 :=
        Finset.card_insert_le _ _
    _ = pf.width * pf.height + 1 := by rw [card_allCells]

theorem nbr_of_dir {u : Pos} {d : Int × Int} (hd : d ∈ directions) :
    nbr u (u.1 + d.1, u.2 + d.2) := ⟨d, hd, rfl⟩

theorem heuristic_self (goal : Pos) : heuristic goal goal = 0 := by
  unfold heuristic
  simp

theorem heuristic_nbr (goal : Pos) {u v : Pos} (h : nbr u v) :
    heuristic goal u ≤ heuristic goal v + 1 := by
  obtain ⟨d, hd, rfl⟩ := h
  simp only [directions, List.mem_cons, List.not_mem_nil, or_false] at hd
  unfold heuristic
  rcases hd with rfl | rfl | rfl | rfl <;> simp <;> omega

theorem heuristic_consistent {pf : Pathfinder} {board : Board} (goal : Pos) :
    ∀ {k : Nat} {u v : Pos}, relN (stepV pf board) k u v →
      heuristic goal u ≤ k + heuristic goal v := by
  intro k
  induction k with
  | zero =>
    intro u v h
    have huv : u = v := h
    subst huv
    omega
  | succ k ih =>
    intro u v h
    obtain ⟨w, hw, hrest⟩ := h
    have h1 := heuristic_nbr goal hw.1
    have h2 := ih hrest
    omega

theorem chain'_strengthen {Q : Pos → Prop} :
    ∀ (l : List Pos), List.Chain' nbr l → (∀ x ∈ l.tail, Q x) →
      List.Chain' (fun u v => nbr u v ∧ Q v) l := by
  intro l
  induction l with
  | nil => intro _ _; exact List.chain'_nil
  | cons x t ih =>
    intro hc hq
    cases t with
    | nil => exact List.chain'_singleton x
    | cons y s =>
      have hc' := List.chain'_cons.mp hc
      refine List.chain'_cons.mpr ⟨⟨hc'.1, hq y (by simp)⟩, ?_⟩
      exact ih hc'.2 fun z hz => hq z (List.mem_cons_of_mem y hz)

theorem trailTo_relN {pf : Pathfinder} {board : Board} {goal start c : Pos} {p : List Pos}
    (h : TrailTo pf board goal start c p) :
    relN (stepE pf board goal) (p.length - 1) start c := by
  obtain ⟨hh, hl, hc, htail⟩ := h
  have hchain := chain'_strengthen (Q := fun x => pf.passable board x = true ∧ x ≠ goal)
    p hc htail
  refine chain_to_relN p hh hl (hchain.imp fun a b hab => ?_)
  exact ⟨⟨hab.1, hab.2.1⟩, hab.2.2⟩

theorem isPath_relN {pf : Pathfinder} {board : Board} {s g : Pos} {r : List Pos}
    (h : IsPath pf board s g r) :
    relN (stepV pf board) (r.length - 1) s g := by
  obtain ⟨hh, hl, hc, hcells⟩ := h
  have hchain := chain'_strengthen (Q := fun x => pf.passable board x = true)
    r hc (fun x hx => hcells x (List.mem_of_mem_tail hx))
  exact chain_to_relN r hh hl hchain

/-! ## Theorems: `flood_fill` -/

theorem floodExpand_spec (pf : Pathfinder) (board : Board) (c : Pos) :
    ∀ (dirs : List (Int × Int)), (∀ d ∈ dirs, d ∈ directions) →
      ∀ (queue : List Pos) (vis : Finset Pos),
      ∃ news : List Pos,
        floodExpand pf board c dirs queue vis = (queue ++ news, vis ∪ news.toFinset) ∧
        (∀ p ∈ news, nbr c p ∧ pf.passable board p = true ∧ p ∉ vis) ∧
        (∀ d ∈ dirs, ((c.1 + d.1, c.2 + d.2) : Pos) ∈ vis ∪ news.toFinset ∨
          pf.passable board (c.1 + d.1, c.2 + d.2) = false) ∧
        news.Nodup := by
  intro dirs
  induction dirs with
  | nil =>
    intro _ queue vis
    refine ⟨[], by simp [floodExpand], by simp, by simp, List.nodup_nil⟩
  | cons d rest ih0 =>
    intro hdirs queue vis
    have ih := ih0 fun d hd => hdirs d (List.mem_cons_of_mem _ hd)
    have hdmem : d ∈ directions := hdirs d (List.mem_cons_self _ _)
    obtain ⟨dx, dy⟩ := d
    by_cases hcond : ((c.1 + dx, c.2 + dy) : Pos) ∉ vis ∧
        pf.passable board (c.1 + dx, c.2 + dy) = true
    · obtain ⟨news', heq, hprops, hclosure, hnd⟩ :=
        ih (queue ++ [(c.1 + dx, c.2 + dy)]) (insert (c.1 + dx, c.2 + dy) vis)
      have hstep : floodExpand pf board c ((dx, dy) :: rest) queue vis =
          floodExpand pf board c rest (queue ++ [(c.1 + dx, c.2 + dy)])
            (insert (c.1 + dx, c.2 + dy) vis) := by
        simp only [floodExpand]
        rw [if_pos hcond]
      refine ⟨(c.1 + dx, c.2 + dy) :: news', ?_, ?_, ?_, ?_⟩
      · rw [hstep, heq]
        have h1 : queue ++ [((c.1 + dx, c.2 + dy) : Pos)] ++ news' =
            queue ++ (c.1 + dx, c.2 + dy) :: news' := by
          rw [List.append_assoc]
          rfl
        have h2 : insert ((c.1 + dx, c.2 + dy) : Pos) vis ∪ news'.toFinset =
            vis ∪ ((c.1 + dx, c.2 + dy) :: news').toFinset := by
          ext z
          simp only [Finset.mem_union, Finset.mem_insert, List.toFinset_cons,
            List.mem_toFinset]
          tauto
        rw [h1, h2]
      · intro p hp
        rcases List.mem_cons.mp hp with rfl | hp
        · exact ⟨nbr_of_dir hdmem, hcond.2, hcond.1⟩
        · obtain ⟨h1, h2, h3⟩ := hprops p hp
          exact ⟨h1, h2, fun hmem => h3 (Finset.mem_insert_of_mem hmem)⟩
      · intro d' hd'
        rcases List.mem_cons.mp hd' with rfl | hd'
        · left
          simp
        · rcases hclosure d' hd' with hmem | hpass
          · left
            revert hmem
            simp only [Finset.mem_union, Finset.mem_insert, List.toFinset_cons,
              List.mem_toFinset]
            tauto
          · right
            exact hpass
      · refine List.nodup_cons.mpr ⟨?_, hnd⟩
        intro hmem
        exact (hprops _ hmem).2.2 (Finset.mem_insert_self _ _)
    · obtain ⟨news', heq, hprops, hclosure, hnd⟩ := ih queue vis
      have hstep : floodExpand pf board c ((dx, dy) :: rest) queue vis =
          floodExpand pf board c rest queue vis := by
        simp only [floodExpand]
        rw [if_neg hcond]
      refine ⟨news', ?_, hprops, ?_, hnd⟩
      · rw [hstep]
        exact heq
      · intro d' hd'
        rcases List.mem_cons.mp hd' with rfl | hd'
        · rw [not_and_or, not_not] at hcond
          rcases hcond with hmem | hpass
          · exact Or.inl (Finset.mem_union_left _ hmem)
          · exact Or.inr (Bool.not_eq_true _ ▸ hpass)
        · exact hclosure d' hd'

theorem floodInv_init (pf : Pathfinder) (board : Board) (start : Pos) :
    FloodInv pf board start [start] {start} := by
  refine ⟨Finset.mem_singleton_self start, ?_, ?_, ?_, ?_⟩
  · intro c hc
    rcases List.mem_singleton.mp hc with rfl
    exact Finset.mem_singleton_self c
  · intro v hv
    rcases Finset.mem_singleton.mp hv with rfl
    exact ⟨0, relN_refl _ _⟩
  · intro v hv
    rcases Finset.mem_singleton.mp hv with rfl
    exact Or.inl rfl
  · intro u hu hnq
    rcases Finset.mem_singleton.mp hu with rfl
    exact absurd (List.mem_singleton_self u) hnq

theorem flood_closed {pf : Pathfinder} {board : Board} {start : Pos} {vis : Finset Pos}
    (hInv : FloodInv pf board start [] vis) :
    ∀ v, v ∈ vis ↔ ∃ n, relN (stepV pf board) n start v := by
  have hall : ∀ n v, relN (stepV pf board) n start v → v ∈ vis := by
    intro n
    induction n with
    | zero =>
      intro v h
      have hv : start = v := h
      exact hv ▸ hInv.start_vis
    | succ n ih =>
      intro v h
      obtain ⟨u, hu, huv⟩ := relN_snoc.mp h
      exact hInv.processed_closed u (ih u hu) (by simp) v huv
  exact fun v => ⟨hInv.vis_reach v, fun ⟨n, hn⟩ => hall n v hn⟩

theorem floodLoop_spec (pf : Pathfinder) (board : Board) (start : Pos) :
    ∀ (fuel : Nat) (queue : List Pos) (vis : Finset Pos),
      FloodInv pf board start queue vis →
      measureF pf start queue vis ≤ fuel →
      ∀ v, v ∈ floodLoop pf board fuel queue vis ↔
        ∃ n, relN (stepV pf board) n start v := by
  intro fuel
  induction fuel with
  | zero =>
    intro queue vis hInv hm v
    have hq : queue = [] := by
      unfold measureF at hm
      cases queue with
      | nil => rfl
      | cons c rest => simp at hm
    subst hq
    exact flood_closed hInv v
  | succ fuel ih =>
    intro queue vis hInv hm v
    cases queue with
    | nil =>
      exact flood_closed hInv v
    | cons c rest =>
      obtain ⟨news, heq, hprops, hclosure, hnd⟩ :=
        floodExpand_spec pf board c directions (fun d hd => hd) rest vis
      have hstep : floodLoop pf board (fuel + 1) (c :: rest) vis =
          floodLoop pf board fuel (rest ++ news) (vis ∪ news.toFinset) := by
        show floodLoop pf board fuel (floodExpand pf board c directions rest vis).1
          (floodExpand pf board c directions rest vis).2 = _
        rw [heq]
      rw [hstep]
      have hcreach : ∃ n, relN (stepV pf board) n start c :=
        hInv.vis_reach c (hInv.node_vis c (List.mem_cons_self c rest))
      have hInv' : FloodInv pf board start (rest ++ news) (vis ∪ news.toFinset) := by
        refine ⟨Finset.mem_union_left _ hInv.start_vis, ?_, ?_, ?_, ?_⟩
        · intro z hz
          rcases List.mem_append.mp hz with hz | hz
          · exact Finset.mem_union_left _
              (hInv.node_vis z (List.mem_cons_of_mem c hz))
          · exact Finset.mem_union_right _ (List.mem_toFinset.mpr hz)
        · intro z hz
          rcases Finset.mem_union.mp hz with hz | hz
          · exact hInv.vis_reach z hz
          · obtain ⟨n, hn⟩ := hcreach
            obtain ⟨h1, h2, _⟩ := hprops z (List.mem_toFinset.mp hz)
            exact ⟨n + 1, relN_snoc.mpr ⟨c, hn, h1, h2⟩⟩
        · intro z hz
          rcases Finset.mem_union.mp hz with hz | hz
          · exact hInv.vis_cells z hz
          · exact Or.inr (hprops z (List.mem_toFinset.mp hz)).2.1
        · intro u hu hnq w huw
          by_cases huc : u = c
          · subst huc
            obtain ⟨d, hd, rfl⟩ := huw.1
            rcases hclosure d hd with hmem | hpass
            · exact hmem
            · rw [huw.2] at hpass
              exact absurd hpass (by simp)
          · have hu' : u ∈ vis := by
              rcases Finset.mem_union.mp hu with h | h
              · exact h
              · exact absurd (List.mem_append_right rest (List.mem_toFinset.mp h)) hnq
            have hnq' : u ∉ c :: rest := by
              intro hmem
              rcases List.mem_cons.mp hmem with rfl | hmem
              · exact huc rfl
              · exact hnq (List.mem_append_left news hmem)
            exact Finset.mem_union_left _ (hInv.processed_closed u hu' hnq' w huw)
      have hm' : measureF pf start (rest ++ news) (vis ∪ news.toFinset) ≤ fuel := by
        unfold measureF at hm ⊢
        have hsub : news.toFinset ⊆ cellsPlus pf start \ vis := by
          intro z hz
          obtain ⟨_, h2, h3⟩ := hprops z (List.mem_toFinset.mp hz)
          exact Finset.mem_sdiff.mpr ⟨mem_cellsPlus_of_passable h2, h3⟩
        have hsd : cellsPlus pf start \ (vis ∪ news.toFinset) =
            (cellsPlus pf start \ vis) \ news.toFinset := by
          ext z
          simp only [Finset.mem_sdiff, Finset.mem_union]
          tauto
        rw [hsd, Finset.card_sdiff hsub]
        have hcard : news.toFinset.card = news.length :=
          List.toFinset_card_of_nodup hnd
        have hle : news.toFinset.card ≤ (cellsPlus pf start \ vis).card :=
          Finset.card_le_card hsub
        simp only [List.length_append, List.length_cons] at hm ⊢
        omega
      exact ih (rest ++ news) (vis ∪ news.toFinset) hInv' hm' v

theorem flood_fill_spec (pf : Pathfinder) (start : Pos) (board : Board) :
    ∀ v, v ∈ pf.flood_fill start board ↔ ∃ n, relN (stepV pf board) n start v := by
  intro v
  unfold Pathfinder.flood_fill
  refine floodLoop_spec pf board start _ [start] {start} (floodInv_init pf board start) ?_ v
  unfold measureF
  have h1 : (cellsPlus pf start \ {start}).card ≤ pf.width * pf.height := by
    have hsub : cellsPlus pf start \ {start} ⊆ pf.allCells := by
      intro z hz
      obtain ⟨hz1, hz2⟩ := Finset.mem_sdiff.mp hz
      rcases Finset.mem_insert.mp hz1 with rfl | h
      · exact absurd (Finset.mem_singleton_self z) hz2
      · exact h
    calc (cellsPlus pf start \ {start}).card ≤ pf.allCells.card :=
          Finset.card_le_card hsub
      _ = pf.width * pf.height := card_allCells pf
  simp only [List.length_singleton]
  omega

theorem cellAt_replicate_zero (w h : Nat) (p : Pos) :
    cellAt (List.replicate h (List.replicate w (0 : Nat))) p = 0 := by
  unfold cellAt
  have hrow : (List.replicate h (List.replicate w (0 : Nat))).getD p.2.toNat [] =
      List.replicate w 0 ∨
      (List.replicate h (List.replicate w (0 : Nat))).getD p.2.toNat [] = [] := by
    rw [List.getD_eq_getElem?_getD]
    cases hx : (List.replicate h (List.replicate w (0 : Nat)))[p.2.toNat]? with
    | none => right; rfl
    | some r =>
      left
      have hr : r ∈ List.replicate h (List.replicate w (0 : Nat)) :=
        List.getElem?_mem hx
      simpa using (List.eq_of_mem_replicate hr).symm ▸ rfl
  rcases hrow with hrow | hrow <;> rw [hrow]
  · rw [List.getD_eq_getElem?_getD]
    cases hx : (List.replicate w (0 : Nat))[p.1.toNat]? with
    | none => rfl
    | some v =>
      have hv : v ∈ List.replicate w (0 : Nat) := List.getElem?_mem hx
      rw [List.eq_of_mem_replicate hv]
      rfl
  · rfl

theorem replicate_WFBoard (pf : Pathfinder) :
    WFBoard pf (List.replicate pf.height (List.replicate pf.width (0 : Nat))) := by
  refine ⟨List.length_replicate _ _, ?_⟩
  intro row hrow
  rw [List.eq_of_mem_replicate hrow]
  exact List.length_replicate _ _

theorem empty_passable_iff (pf : Pathfinder) (p : Pos) :
    pf.passable (List.replicate pf.height (List.replicate pf.width (0 : Nat))) p =
      pf.inBounds p := by
  unfold Pathfinder.passable
  rw [cellAt_replicate_zero]
  simp

theorem reach_horiz (pf : Pathfinder) (board : Board)
    (hEmpty : ∀ p, pf.inBounds p = true → cellAt board p = 0) (y : Int)
    (hy0 : 0 ≤ y) (hyh : y < (pf.height : Int)) :
    ∀ (k : Nat) (a b : Int), 0 ≤ a → a < (pf.width : Int) → 0 ≤ b →
      b < (pf.width : Int) → (b - a).natAbs = k →
      ∃ n, relN (stepV pf board) n (a, y) (b, y) := by
  intro k
  induction k with
  | zero =>
    intro a b _ _ _ _ hk
    have hab : a = b := by omega
    exact ⟨0, hab ▸ relN_refl _ _⟩
  | succ k ih =>
    intro a b ha0 haw hb0 hbw hk
    rcases lt_trichotomy a b with hab | hab | hab
    · have hbnd : pf.inBounds (a + 1, y) = true := inBounds_iff.mpr ⟨by omega, by omega, hy0, hyh⟩
      have hstep : stepV pf board (a, y) (a + 1, y) := by
        refine ⟨⟨(1, 0), by simp [directions], by simp⟩, passable_of hbnd (hEmpty _ hbnd)⟩
      obtain ⟨n, hn⟩ := ih (a + 1) b (by omega) (by omega) hb0 hbw (by omega)
      exact ⟨n + 1, ⟨(a + 1, y), hstep, hn⟩⟩
    · omega
    · have hbnd : pf.inBounds (a - 1, y) = true := inBounds_iff.mpr ⟨by omega, by omega, hy0, hyh⟩
      have hstep : stepV pf board (a, y) (a - 1, y) := by
        refine ⟨⟨(-1, 0), by simp [directions], by simp; ring⟩, passable_of hbnd (hEmpty _ hbnd)⟩
      obtain ⟨n, hn⟩ := ih (a - 1) b (by omega) (by omega) hb0 hbw (by omega)
      exact ⟨n + 1, ⟨(a - 1, y), hstep, hn⟩⟩

theorem reach_vert (pf : Pathfinder) (board : Board)
    (hEmpty : ∀ p, pf.inBounds p = true → cellAt board p = 0) (x : Int)
    (hx0 : 0 ≤ x) (hxw : x < (pf.width : Int)) :
    ∀ (k : Nat) (a b : Int), 0 ≤ a → a < (pf.height : Int) → 0 ≤ b →
      b < (pf.height : Int) → (b - a).natAbs = k →
      ∃ n, relN (stepV pf board) n (x, a) (x, b) := by
  intro k
  induction k with
  | zero =>
    intro a b _ _ _ _ hk
    have hab : a = b := by omega
    exact ⟨0, hab ▸ relN_refl _ _⟩
  | succ k ih =>
    intro a b ha0 hah hb0 hbh hk
    rcases lt_trichotomy a b with hab | hab | hab
    · have hbnd : pf.inBounds (x, a + 1) = true := inBounds_iff.mpr ⟨hx0, hxw, by omega, by omega⟩
      have hstep : stepV pf board (x, a) (x, a + 1) := by
        refine ⟨⟨(0, 1), by simp [directions], by simp⟩, passable_of hbnd (hEmpty _ hbnd)⟩
      obtain ⟨n, hn⟩ := ih (a + 1) b (by omega) (by omega) hb0 hbh (by omega)
      exact ⟨n + 1, ⟨(x, a + 1), hstep, hn⟩⟩
    · omega
    · have hbnd : pf.inBounds (x, a - 1) = true := inBounds_iff.mpr ⟨hx0, hxw, by omega, by omega⟩
      have hstep : stepV pf board (x, a) (x, a - 1) := by
        refine ⟨⟨(0, -1), by simp [directions], by simp; ring⟩, passable_of hbnd (hEmpty _ hbnd)⟩
      obtain ⟨n, hn⟩ := ih (a - 1) b (by omega) (by omega) hb0 hbh (by omega)
      exact ⟨n + 1, ⟨(x, a - 1), hstep, hn⟩⟩

theorem rect_reach (pf : Pathfinder) (board : Board)
    (hEmpty : ∀ p, pf.inBounds p = true → cellAt board p = 0) (start : Pos)
    (hs : pf.inBounds start = true) :
    ∀ p, pf.inBounds p = true → ∃ n, relN (stepV pf board) n start p := by
  intro p hp
  obtain ⟨hs1, hs2, hs3, hs4⟩ := inBounds_iff.mp hs
  obtain ⟨hp1, hp2, hp3, hp4⟩ := inBounds_iff.mp hp
  obtain ⟨n1, hn1⟩ := reach_horiz pf board hEmpty start.2 hs3 hs4
    (p.1 - start.1).natAbs start.1 p.1 hs1 hs2 hp1 hp2 rfl
  obtain ⟨n2, hn2⟩ := reach_vert pf board hEmpty p.1 hp1 hp2
    (p.2 - start.2).natAbs start.2 p.2 hs3 hs4 hp3 hp4 rfl
  refine ⟨n1 + n2, ?_⟩
  have h1 : relN (stepV pf board) n1 start (p.1, start.2) := by
    have : ((start.1, start.2) : Pos) = start := rfl
    rw [← this]
    exact hn1
  have h2 : relN (stepV pf board) n2 (p.1, start.2) p := by
    have : ((p.1, p.2) : Pos) = p := rfl
    rw [← this] at *
    exact hn2
  exact relN_trans h1 h2

/-- C8: on the all-empty `width × height` grid, `flood_fill` from an
in-bounds start returns every cell of the grid — exactly
`width * height` positions; and on every grid the returned set contains
the start itself, regardless of the start cell's occupancy value. -/
theorem flood_fill_full_grid_and_start (pf : Pathfinder) (start : Pos) (board : Board) :
    (board = List.replicate pf.height (List.replicate pf.width 0) →
      pf.inBounds start = true →
      pf.flood_fill start board = pf.allCells ∧
      (pf.flood_fill start board).card = pf.width * pf.height) ∧
    start ∈ pf.flood_fill start board := by
  constructor
  · rintro rfl hs
    have hEmpty : ∀ p, pf.inBounds p = true →
        cellAt (List.replicate pf.height (List.replicate pf.width 0)) p = 0 :=
      fun p _ => cellAt_replicate_zero _ _ p
    have hset : pf.flood_fill start (List.replicate pf.height (List.replicate pf.width 0)) =
        pf.allCells := by
      ext v
      rw [flood_fill_spec, mem_allCells]
      constructor
      · rintro ⟨n, hn⟩
        cases n with
        | zero =>
          have hv : start = v := hn
          exact hv ▸ hs
        | succ n =>
          obtain ⟨u, _, huv⟩ := relN_snoc.mp hn
          exact passable_inBounds huv.2
      · intro hv
        exact rect_reach pf _ hEmpty start hs v hv
    exact ⟨hset, by rw [hset, card_allCells]⟩
  · exact (flood_fill_spec pf start board start).mpr ⟨0, relN_refl _ _⟩

/-- Witness for `flood_fill_full_grid_and_start` on a concrete empty
2 × 2 grid. -/
theorem flood_fill_full_grid_and_start_witness :
    ((Pathfinder.mk 2 2).flood_fill (0, 0) [[0, 0], [0, 0]] =
        (Pathfinder.mk 2 2).allCells ∧
      ((Pathfinder.mk 2 2).flood_fill (0, 0) [[0, 0], [0, 0]]).card = 2 * 2) ∧
    (0, 0) ∈ (Pathfinder.mk 2 2).flood_fill (0, 0) [[1, 0], [0, 0]] :=
  ⟨(flood_fill_full_grid_and_start (Pathfinder.mk 2 2) (0, 0) [[0, 0], [0, 0]]).1
      (by decide) (by decide),
   (flood_fill_full_grid_and_start (Pathfinder.mk 2 2) (0, 0) [[1, 0], [0, 0]]).2⟩

/-! ## Theorems: `bfs` -/

theorem bfsExpand_spec (pf : Pathfinder) (goal : Pos) (board : Board) (c : Pos)
    (path : List Pos) :
    ∀ (dirs : List (Int × Int)), (∀ d ∈ dirs, d ∈ directions) →
      ∀ (queue : List (Pos × List Pos)) (vis : Finset Pos),
      (∃ d ∈ dirs, ((c.1 + d.1, c.2 + d.2) : Pos) = goal ∧
        ∃ q2 v2, bfsExpand pf goal board c path dirs queue vis =
          (some (path ++ [goal]), q2, v2)) ∨
      ((∀ d ∈ dirs, ((c.1 + d.1, c.2 + d.2) : Pos) ≠ goal) ∧
        ∃ news : List (Pos × List Pos),
          bfsExpand pf goal board c path dirs queue vis =
            (none, queue ++ news, vis ∪ (news.map Prod.fst).toFinset) ∧
          (∀ e ∈ news, nbr c e.1 ∧ pf.passable board e.1 = true ∧ e.1 ≠ goal ∧
            e.1 ∉ vis ∧ e.2 = path ++ [e.1]) ∧
          (∀ d ∈ dirs, ((c.1 + d.1, c.2 + d.2) : Pos) ∈
              vis ∪ (news.map Prod.fst).toFinset ∨
            pf.passable board (c.1 + d.1, c.2 + d.2) = false) ∧
          (news.map Prod.fst).Nodup) := by
  intro dirs
  induction dirs with
  | nil =>
    intro _ queue vis
    right
    refine ⟨by simp, [], by simp [bfsExpand], by simp, by simp, List.nodup_nil⟩
  | cons d rest ih0 =>
    intro hdirs queue vis
    have hdmem : d ∈ directions := hdirs d (List.mem_cons_self _ _)
    have ihrest := ih0 fun d hd => hdirs d (List.mem_cons_of_mem _ hd)
    obtain ⟨dx, dy⟩ := d
    by_cases hgoal : ((c.1 + dx, c.2 + dy) : Pos) = goal
    · left
      refine ⟨(dx, dy), List.mem_cons_self _ _, hgoal, queue, vis, ?_⟩
      simp only [bfsExpand]
      rw [if_pos hgoal]
    · by_cases hcond : ((c.1 + dx, c.2 + dy) : Pos) ∉ vis ∧
          pf.passable board (c.1 + dx, c.2 + dy) = true
      · have hstep : bfsExpand pf goal board c path ((dx, dy) :: rest) queue vis =
            bfsExpand pf goal board c path rest
              (queue ++ [((c.1 + dx, c.2 + dy), path ++ [(c.1 + dx, c.2 + dy)])])
              (insert (c.1 + dx, c.2 + dy) vis) := by
          simp only [bfsExpand]
          rw [if_neg hgoal, if_pos hcond]
        rcases ihrest (queue ++ [((c.1 + dx, c.2 + dy), path ++ [(c.1 + dx, c.2 + dy)])])
            (insert (c.1 + dx, c.2 + dy) vis) with
          ⟨d', hd', hdg, q2, v2, heq⟩ | ⟨hng, news', heq, hprops, hclosure, hnd⟩
        · left
          exact ⟨d', List.mem_cons_of_mem _ hd', hdg, q2, v2, by rw [hstep]; exact heq⟩
        · right
          refine ⟨?_, ((c.1 + dx, c.2 + dy), path ++ [(c.1 + dx, c.2 + dy)]) :: news',
            ?_, ?_, ?_, ?_⟩
          · intro d' hd'
            rcases List.mem_cons.mp hd' with rfl | hd'
            · exact hgoal
            · exact hng d' hd'
          · rw [hstep, heq]
            have h1 : queue ++ [(((c.1 + dx, c.2 + dy) : Pos),
                path ++ [((c.1 + dx, c.2 + dy) : Pos)])] ++ news' =
                queue ++ ((c.1 + dx, c.2 + dy), path ++ [((c.1 + dx, c.2 + dy) : Pos)]) ::
                  news' := by
              rw [List.append_assoc]
              rfl
            have h2 : insert ((c.1 + dx, c.2 + dy) : Pos) vis ∪
                (news'.map Prod.fst).toFinset =
                vis ∪ (((((c.1 + dx, c.2 + dy) : Pos),
                  path ++ [((c.1 + dx, c.2 + dy) : Pos)]) :: news').map Prod.fst).toFinset := by
              ext z
              simp only [Finset.mem_union, Finset.mem_insert, List.map_cons,
                List.toFinset_cons, List.mem_toFinset]
              tauto
            rw [h1, h2]
          · intro e he
            rcases List.mem_cons.mp he with rfl | he
            · exact ⟨nbr_of_dir hdmem, hcond.2, hgoal, hcond.1, rfl⟩
            · obtain ⟨h1, h2, h3, h4, h5⟩ := hprops e he
              exact ⟨h1, h2, h3, fun hmem => h4 (Finset.mem_insert_of_mem hmem), h5⟩
          · intro d' hd'
            rcases List.mem_cons.mp hd' with rfl | hd'
            · left
              simp
            · rcases hclosure d' hd' with hmem | hpass
              · left
                revert hmem
                simp only [Finset.mem_union, Finset.mem_insert, List.map_cons,
                  List.toFinset_cons, List.mem_toFinset]
                tauto
              · right
                exact hpass
          · refine List.nodup_cons.mpr ⟨?_, hnd⟩
            intro hmem
            obtain ⟨e, he, heq'⟩ := List.mem_map.mp hmem
            have := (hprops e he).2.2.2.1
            rw [heq'] at this
            exact this (Finset.mem_insert_self _ _)
      · have hstep : bfsExpand pf goal board c path ((dx, dy) :: rest) queue vis =
            bfsExpand pf goal board c path rest queue vis := by
          simp only [bfsExpand]
          rw [if_neg hgoal, if_neg hcond]
        rcases ihrest queue vis with
          ⟨d', hd', hdg, q2, v2, heq⟩ | ⟨hng, news', heq, hprops, hclosure, hnd⟩
        · left
          exact ⟨d', List.mem_cons_of_mem _ hd', hdg, q2, v2, by rw [hstep]; exact heq⟩
        · right
          refine ⟨?_, news', by rw [hstep]; exact heq, hprops, ?_, hnd⟩
          · intro d' hd'
            rcases List.mem_cons.mp hd' with rfl | hd'
            · exact hgoal
            · exact hng d' hd'
          · intro d' hd'
            rcases List.mem_cons.mp hd' with rfl | hd'
            · rw [not_and_or, not_not] at hcond
              rcases hcond with hmem | hpass
              · exact Or.inl (Finset.mem_union_left _ hmem)
              · exact Or.inr (Bool.not_eq_true _ ▸ hpass)
            · exact hclosure d' hd'

theorem trailTo_ne_nil {pf : Pathfinder} {board : Board} {goal start c : Pos}
    {p : List Pos} (h : TrailTo pf board goal start c p) : p ≠ [] := by
  intro hnil
  rw [hnil] at h
  simpa using h.1

theorem trailTo_length_pos {pf : Pathfinder} {board : Board} {goal start c : Pos}
    {p : List Pos} (h : TrailTo pf board goal start c p) : 1 ≤ p.length :=
  List.length_pos.mpr (trailTo_ne_nil h)

theorem trailTo_snoc {pf : Pathfinder} {board : Board} {goal start c x : Pos}
    {p : List Pos} (h : TrailTo pf board goal start c p) (hnbr : nbr c x)
    (hpass : pf.passable board x = true) (hng : x ≠ goal) :
    TrailTo pf board goal start x (p ++ [x]) := by
  obtain ⟨hh, hl, hc, ht⟩ := h
  refine ⟨?_, List.getLast?_concat p, ?_, ?_⟩
  · cases p with
    | nil => simp at hh
    | cons a t => simpa using hh
  · refine List.chain'_append.mpr ⟨hc, List.chain'_singleton x, ?_⟩
    intro u hu y hy
    have hy' : x = y := by simpa using hy
    have hu' : c = u := by rw [hl] at hu; simpa using hu
    subst hy'
    subst hu'
    exact hnbr
  · cases p with
    | nil => simp at hh
    | cons a t =>
      intro z hz
      simp only [List.cons_append, List.tail_cons, List.mem_append,
        List.mem_singleton] at hz
      rcases hz with hz | rfl
      · exact ht z hz
      · exact ⟨hpass, hng⟩

theorem bfs_head_min {pf : Pathfinder} {board : Board} {start goal : Pos}
    {e0 : Pos × List Pos} {tail : List (Pos × List Pos)} {vis : Finset Pos}
    (hInv : BfsInv pf board start goal (e0 :: tail) vis) :
    ∀ (k : Nat) (v : Pos), v ∉ vis → relN (stepE pf board goal) k start v →
      e0.2.length ≤ k := by
  intro k
  induction k with
  | zero =>
    intro v hv h
    have hv' : start = v := h
    subst hv'
    exact absurd hInv.start_vis hv
  | succ k ih =>
    intro v hv h
    obtain ⟨u, hu, huv⟩ := relN_snoc.mp h
    by_cases huvis : u ∈ vis
    · by_cases huq : u ∈ (e0 :: tail).map Prod.fst
      · obtain ⟨e, he, heq⟩ := List.mem_map.mp huq
        have hle : e0.2.length ≤ e.2.length := by
          rcases List.mem_cons.mp he with rfl | he
          · exact le_rfl
          · exact (List.pairwise_cons.mp hInv.levels_sorted).1 e he
        have hmr := (hInv.entry_trail e he).2
        have hk : e.2.length - 1 ≤ k := hmr.2 k (heq ▸ hu)
        have hpos : 1 ≤ e.2.length := trailTo_length_pos (hInv.entry_trail e he).1
        omega
      · exact absurd (hInv.processed_closed u huvis huq v huv) hv
    · have := ih u huvis hu
      omega

theorem bfsInv_step {pf : Pathfinder} {board : Board} {start goal c0 : Pos}
    {p0 : List Pos} {tail news : List (Pos × List Pos)} {vis : Finset Pos}
    (hInv : BfsInv pf board start goal ((c0, p0) :: tail) vis)
    (hprops : ∀ e ∈ news, nbr c0 e.1 ∧ pf.passable board e.1 = true ∧ e.1 ≠ goal ∧
      e.1 ∉ vis ∧ e.2 = p0 ++ [e.1])
    (hclosure : ∀ d ∈ directions, ((c0.1 + d.1, c0.2 + d.2) : Pos) ∈
        vis ∪ (news.map Prod.fst).toFinset ∨
      pf.passable board (c0.1 + d.1, c0.2 + d.2) = false)
    (hnogoal : ∀ d ∈ directions, ((c0.1 + d.1, c0.2 + d.2) : Pos) ≠ goal)
    (hnodup : (news.map Prod.fst).Nodup) :
    BfsInv pf board start goal (tail ++ news) (vis ∪ (news.map Prod.fst).toFinset) := by
  have hc0 := hInv.entry_trail (c0, p0) (List.mem_cons_self _ _)
  have hc0t : TrailTo pf board goal start c0 p0 := hc0.1
  have hc0m : MinReach (stepE pf board goal) start c0 (p0.length - 1) := hc0.2
  have hp0pos : 1 ≤ p0.length := trailTo_length_pos hc0t
  have hnewlevel : ∀ e ∈ news, MinReach (stepE pf board goal) start e.1 p0.length := by
    intro e he
    obtain ⟨h1, h2, h3, h4, _⟩ := hprops e he
    refine ⟨?_, ?_⟩
    · have hstep : stepE pf board goal c0 e.1 := ⟨⟨h1, h2⟩, h3⟩
      have := relN_snoc.mpr ⟨c0, hc0m.1, hstep⟩
      have heq : p0.length - 1 + 1 = p0.length := by omega
      rw [heq] at this
      exact this
    · intro k hk
      exact bfs_head_min hInv k e.1 h4 hk
  have hnewtrail : ∀ e ∈ news, TrailTo pf board goal start e.1 e.2 := by
    intro e he
    obtain ⟨h1, h2, h3, _, h5⟩ := hprops e he
    rw [h5]
    exact trailTo_snoc hc0t h1 h2 h3
  have hnewlen : ∀ e ∈ news, e.2.length = p0.length + 1 := by
    intro e he
    rw [(hprops e he).2.2.2.2]
    simp
  have hspread0 := hInv.levels_spread
  have hsorted0 := List.pairwise_cons.mp hInv.levels_sorted
  refine ⟨Finset.mem_union_left _ hInv.start_vis, ?_, ?_, ?_, ?_, ?_, ?_, ?_, ?_, ?_, ?_⟩
  · intro e he
    rcases List.mem_append.mp he with he | he
    · exact Finset.mem_union_left _ (hInv.node_vis e (List.mem_cons_of_mem _ he))
    · exact Finset.mem_union_right _
        (List.mem_toFinset.mpr (List.mem_map.mpr ⟨e, he, rfl⟩))
  · rw [List.map_append]
    refine List.nodup_append.mpr ⟨?_, hnodup, ?_⟩
    · have := hInv.nodes_nodup
      simp only [List.map_cons] at this
      exact (List.nodup_cons.mp this).2
    · intro a ha hb
      obtain ⟨e, he, heq⟩ := List.mem_map.mp ha
      obtain ⟨e', he', heq'⟩ := List.mem_map.mp hb
      have hav : a ∈ vis := heq ▸ hInv.node_vis e (List.mem_cons_of_mem _ he)
      have hnv : a ∉ vis := heq' ▸ (hprops e' he').2.2.2.1
      exact hnv hav
  · intro e he
    rcases List.mem_append.mp he with he | he
    · exact hInv.entry_trail e (List.mem_cons_of_mem _ he)
    · refine ⟨hnewtrail e he, ?_⟩
      have := hnewlevel e he
      rw [hnewlen e he]
      simpa using this
  · intro v hv
    rcases Finset.mem_union.mp hv with hv | hv
    · exact hInv.vis_reach v hv
    · obtain ⟨e, he, heq⟩ := List.mem_map.mp (List.mem_toFinset.mp hv)
      exact heq ▸ ⟨p0.length, (hnewlevel e he).1⟩
  · intro v hv
    rcases Finset.mem_union.mp hv with hv | hv
    · exact hInv.vis_cells v hv
    · obtain ⟨e, he, heq⟩ := List.mem_map.mp (List.mem_toFinset.mp hv)
      exact heq ▸ Or.inr ⟨(hprops e he).2.1, (hprops e he).2.2.1⟩
  · intro u hu hnq v huv
    by_cases huc : u = c0
    · subst huc
      obtain ⟨d, hd, rfl⟩ := huv.1.1
      rcases hclosure d hd with hmem | hpass
      · exact hmem
      · rw [huv.1.2] at hpass
        exact absurd hpass (by simp)
    · have hu' : u ∈ vis := by
        rcases Finset.mem_union.mp hu with h | h
        · exact h
        · exfalso
          apply hnq
          rw [List.map_append]
          exact List.mem_append_right _ (List.mem_toFinset.mp h)
      have hnq' : u ∉ ((c0, p0) :: tail).map Prod.fst := by
        intro hmem
        simp only [List.map_cons, List.mem_cons] at hmem
        rcases hmem with h | h
        · exact huc h
        · apply hnq
          rw [List.map_append]
          exact List.mem_append_left _ h
      exact Finset.mem_union_left _ (hInv.processed_closed u hu' hnq' v huv)
  · intro u hu hnq d hd
    by_cases huc : u = c0
    · subst huc
      exact hnogoal d hd
    · have hu' : u ∈ vis := by
        rcases Finset.mem_union.mp hu with h | h
        · exact h
        · exfalso
          apply hnq
          rw [List.map_append]
          exact List.mem_append_right _ (List.mem_toFinset.mp h)
      have hnq' : u ∉ ((c0, p0) :: tail).map Prod.fst := by
        intro hmem
        simp only [List.map_cons, List.mem_cons] at hmem
        rcases hmem with h | h
        · exact huc h
        · apply hnq
          rw [List.map_append]
          exact List.mem_append_left _ h
      exact hInv.processed_nogoal u hu' hnq' d hd
  · refine List.pairwise_append.mpr ⟨?_, ?_, ?_⟩
    · exact hsorted0.2
    · refine List.pairwise_iff_forall_sublist.mpr ?_
      intro a b hab
      have ha : a ∈ news := hab.subset (by simp)
      have hb : b ∈ news := hab.subset (by simp)
      rw [hnewlen a ha, hnewlen b hb]
    · intro a ha b hb
      have h1 : a.2.length ≤ p0.length + 1 :=
        hspread0 a (List.mem_cons_of_mem _ ha) (c0, p0) (List.mem_cons_self _ _)
      rw [hnewlen b hb]
      exact h1
  · intro a ha b hb
    rcases List.mem_append.mp ha with ha | ha <;>
      rcases List.mem_append.mp hb with hb | hb
    · exact hspread0 a (List.mem_cons_of_mem _ ha) b (List.mem_cons_of_mem _ hb)
    · rw [hnewlen b hb]
      have h1 : a.2.length ≤ p0.length + 1 :=
        hspread0 a (List.mem_cons_of_mem _ ha) (c0, p0) (List.mem_cons_self _ _)
      omega
    · rw [hnewlen a ha]
      have h1 : p0.length ≤ b.2.length := hsorted0.1 b hb
      omega
    · rw [hnewlen a ha, hnewlen b hb]
      omega
  · intro v hv k hk e he
    have hvnv : v ∉ vis := fun h => hv (Finset.mem_union_left _ h)
    have hmin : p0.length ≤ k := bfs_head_min hInv k v hvnv hk
    rcases List.mem_append.mp he with he | he
    · have h1 : e.2.length ≤ p0.length + 1 :=
        hspread0 e (List.mem_cons_of_mem _ he) (c0, p0) (List.mem_cons_self _ _)
      omega
    · rw [hnewlen e he]
      omega

theorem bfs_closed {pf : Pathfinder} {board : Board} {start goal : Pos} {vis : Finset Pos}
    (hInv : BfsInv pf board start goal [] vis) :
    ∀ c k, relN (stepE pf board goal) k start c → ¬ nbr c goal := by
  have hall : ∀ k c, relN (stepE pf board goal) k start c → c ∈ vis := by
    intro k
    induction k with
    | zero =>
      intro c h
      have hc : start = c := h
      exact hc ▸ hInv.start_vis
    | succ k ih =>
      intro c h
      obtain ⟨u, hu, huc⟩ := relN_snoc.mp h
      exact hInv.processed_closed u (ih u hu) (by simp) c huc
  intro c k hk hnbr
  obtain ⟨d, hd, heq⟩ := hnbr
  exact hInv.processed_nogoal c (hall k c hk) (by simp) d hd heq.symm

theorem bfsAux_spec (pf : Pathfinder) (board : Board) (start goal : Pos) :
    ∀ (fuel : Nat) (queue : List (Pos × List Pos)) (vis : Finset Pos),
      BfsInv pf board start goal queue vis →
      measureB pf start queue vis ≤ fuel →
      (∀ p, bfsAux pf goal board fuel queue vis = some p →
        ∃ q c, p = q ++ [goal] ∧ TrailTo pf board goal start c q ∧ nbr c goal ∧
          MinReach (stepE pf board goal) start c (q.length - 1) ∧
          ∀ c' k, relN (stepE pf board goal) k start c' → nbr c' goal →
            q.length - 1 ≤ k) ∧
      (bfsAux pf goal board fuel queue vis = none →
        ∀ c' k, relN (stepE pf board goal) k start c' → ¬ nbr c' goal) := by
  intro fuel
  induction fuel with
  | zero =>
    intro queue vis hInv hm
    have hq : queue = [] := by
      unfold measureB at hm
      cases queue with
      | nil => rfl
      | cons e rest => simp at hm
    subst hq
    exact ⟨fun p hp => by simp [bfsAux] at hp, fun _ => bfs_closed hInv⟩
  | succ fuel ih =>
    intro queue vis hInv hm
    cases queue with
    | nil =>
      exact ⟨fun p hp => by simp [bfsAux] at hp, fun _ => bfs_closed hInv⟩
    | cons e0 rest =>
      obtain ⟨c0, p0⟩ := e0
      have hc0 := hInv.entry_trail (c0, p0) (List.mem_cons_self _ _)
      have hp0pos : 1 ≤ p0.length := trailTo_length_pos hc0.1
      rcases bfsExpand_spec pf goal board c0 p0 directions (fun d hd => hd) rest vis with
        ⟨d, hd, hdg, q2, v2, heq⟩ | ⟨hng, news, heq, hprops, hclosure, hnd⟩
      · have hres : bfsAux pf goal board (fuel + 1) ((c0, p0) :: rest) vis =
            some (p0 ++ [goal]) := by
          show (match bfsExpand pf goal board c0 p0 directions rest vis with
            | (some p, _, _) => some p
            | (none, queue', visited') =>
              bfsAux pf goal board fuel queue' visited') = _
          rw [heq]
        constructor
        · intro p hp
          rw [hres] at hp
          have hp' : p0 ++ [goal] = p := Option.some.inj hp
          refine ⟨p0, c0, hp'.symm, hc0.1, ⟨d, hd, hdg.symm⟩, hc0.2, ?_⟩
          intro c' k hk hnbr'
          by_cases hc'vis : c' ∈ vis
          · by_cases hc'q : c' ∈ ((c0, p0) :: rest).map Prod.fst
            · obtain ⟨e, he, heqe⟩ := List.mem_map.mp hc'q
              have hle : p0.length ≤ e.2.length := by
                rcases List.mem_cons.mp he with rfl | he
                · exact le_rfl
                · exact (List.pairwise_cons.mp hInv.levels_sorted).1 e he
              have hmr := (hInv.entry_trail e he).2
              have hk' : e.2.length - 1 ≤ k := hmr.2 k (heqe ▸ hk)
              have hpos : 1 ≤ e.2.length := trailTo_length_pos (hInv.entry_trail e he).1
              omega
            · obtain ⟨d', hd', heqd⟩ := hnbr'
              exact absurd heqd.symm
                (hInv.processed_nogoal c' hc'vis hc'q d' hd')
          · have h1 : p0.length ≤ k := bfs_head_min hInv k c' hc'vis hk
            omega
        · intro hnone
          rw [hres] at hnone
          simp at hnone
      · have hres : bfsAux pf goal board (fuel + 1) ((c0, p0) :: rest) vis =
            bfsAux pf goal board fuel (rest ++ news)
              (vis ∪ (news.map Prod.fst).toFinset) := by
          show (match bfsExpand pf goal board c0 p0 directions rest vis with
            | (some p, _, _) => some p
            | (none, queue', visited') =>
              bfsAux pf goal board fuel queue' visited') = _
          rw [heq]
        have hInv' := bfsInv_step hInv hprops hclosure hng hnd
        have hm' : measureB pf start (rest ++ news)
            (vis ∪ (news.map Prod.fst).toFinset) ≤ fuel := by
          unfold measureB at hm ⊢
          have hsub : (news.map Prod.fst).toFinset ⊆ cellsPlus pf start \ vis := by
            intro z hz
            obtain ⟨e, he, heqe⟩ := List.mem_map.mp (List.mem_toFinset.mp hz)
            obtain ⟨_, h2, _, h4, _⟩ := hprops e he
            exact Finset.mem_sdiff.mpr ⟨heqe ▸ mem_cellsPlus_of_passable h2, heqe ▸ h4⟩
          have hsd : cellsPlus pf start \ (vis ∪ (news.map Prod.fst).toFinset) =
              (cellsPlus pf start \ vis) \ (news.map Prod.fst).toFinset := by
            ext z
            simp only [Finset.mem_sdiff, Finset.mem_union]
            tauto
          rw [hsd, Finset.card_sdiff hsub]
          have hcard : (news.map Prod.fst).toFinset.card = news.length := by
            rw [List.toFinset_card_of_nodup hnd, List.length_map]
          have hle : (news.map Prod.fst).toFinset.card ≤
              (cellsPlus pf start \ vis).card := Finset.card_le_card hsub
          simp only [List.length_append, List.length_cons] at hm ⊢
          omega
        rw [hres]
        exact ih (rest ++ news) (vis ∪ (news.map Prod.fst).toFinset) hInv' hm'

theorem bfsInv_init (pf : Pathfinder) (board : Board) (start goal : Pos) :
    BfsInv pf board start goal [(start, [start])] {start} := by
  refine ⟨Finset.mem_singleton_self _, ?_, by simp, ?_, ?_, ?_, ?_, ?_, ?_, ?_, ?_⟩
  · intro e he
    rcases List.mem_singleton.mp he with rfl
    exact Finset.mem_singleton_self _
  · intro e he
    rcases List.mem_singleton.mp he with rfl
    refine ⟨⟨rfl, rfl, List.chain'_singleton _, by simp⟩, ?_⟩
    simp only [List.length_singleton]
    exact ⟨relN_refl _ _, fun k _ => Nat.zero_le k⟩
  · intro v hv
    rcases Finset.mem_singleton.mp hv with rfl
    exact ⟨0, relN_refl _ _⟩
  · intro v hv
    rcases Finset.mem_singleton.mp hv with rfl
    exact Or.inl rfl
  · intro u hu hnq
    rcases Finset.mem_singleton.mp hu with rfl
    exact absurd (by simp) hnq
  · intro u hu hnq
    rcases Finset.mem_singleton.mp hu with rfl
    exact absurd (by simp) hnq
  · simp
  · intro a ha b hb
    rcases List.mem_singleton.mp ha with rfl
    rcases List.mem_singleton.mp hb with rfl
    omega
  · intro v _ k _ e he
    rcases List.mem_singleton.mp he with rfl
    simp only [List.length_singleton]
    omega

theorem bfs_spec (pf : Pathfinder) (start goal : Pos) (board : Board)
    (hne : start ≠ goal) :
    (∀ p, pf.bfs start goal board = some p →
      ∃ q c, p = q ++ [goal] ∧ TrailTo pf board goal start c q ∧ nbr c goal ∧
        MinReach (stepE pf board goal) start c (q.length - 1) ∧
        ∀ c' k, relN (stepE pf board goal) k start c' → nbr c' goal →
          q.length - 1 ≤ k) ∧
    (pf.bfs start goal board = none →
      ∀ c' k, relN (stepE pf board goal) k start c' → ¬ nbr c' goal) := by
  unfold Pathfinder.bfs
  rw [if_neg hne]
  refine bfsAux_spec pf board start goal _ _ _ (bfsInv_init pf board start goal) ?_
  unfold measureB
  have h1 : (cellsPlus pf start \ {start}).card ≤ pf.width * pf.height := by
    have hsub : cellsPlus pf start \ {start} ⊆ pf.allCells := by
      intro z hz
      obtain ⟨hz1, hz2⟩ := Finset.mem_sdiff.mp hz
      rcases Finset.mem_insert.mp hz1 with rfl | h
      · exact absurd (Finset.mem_singleton_self z) hz2
      · exact h
    calc (cellsPlus pf start \ {start}).card ≤ pf.allCells.card :=
          Finset.card_le_card hsub
      _ = pf.width * pf.height := card_allCells pf
  simp only [List.length_singleton]
  omega

/-- C2 counterexample: on a 2 × 1 grid whose goal cell is occupied (so start
and goal are not connected through empty cells), `bfs` still returns a path,
and that path contains the occupied goal cell — the early goal check runs
before the occupancy check. -/
theorem bfs_occupied_goal_counterexample :
    (Pathfinder.mk 2 1).inBounds (0, 0) = true ∧
    (Pathfinder.mk 2 1).inBounds (1, 0) = true ∧
    cellAt [[0, 1]] (0, 0) = 0 ∧
    cellAt [[0, 1]] (1, 0) = 1 ∧
    (Pathfinder.mk 2 1).bfs (0, 0) (1, 0) [[0, 1]] = some [(0, 0), (1, 0)] := by
  refine ⟨by decide, by decide, by decide, by decide, by decide⟩

/-- C2 amended: `bfs` treats a cell as traversable iff its grid value is 0,
except that the start and the goal are never checked: on a returned path
every position strictly between start and goal is in bounds with value 0
(the final goal cell need not be), and `bfs` returns `none` exactly when
start differs from goal and no cell 4-adjacent to the goal is reachable
from start through in-bounds empty cells distinct from the goal. -/
theorem bfs_traversability_amended (pf : Pathfinder) (board : Board) (start goal : Pos)
    (_hWF : WFBoard pf board) :
    (pf.bfs start goal board = none ↔
      start ≠ goal ∧ ∀ c k, relN (stepE pf board goal) k start c → ¬ nbr c goal) ∧
    (∀ p, pf.bfs start goal board = some p → start ≠ goal →
      ∃ q, p = q ++ [goal] ∧ q.head? = some start ∧
        ∀ x ∈ q.tail, pf.passable board x = true) := by
  constructor
  · constructor
    · intro hnone
      have hne : start ≠ goal := by
        intro h
        rw [Pathfinder.bfs, if_pos h] at hnone
        simp at hnone
      exact ⟨hne, (bfs_spec pf start goal board hne).2 hnone⟩
    · rintro ⟨hne, hno⟩
      cases hres : pf.bfs start goal board with
      | none => rfl
      | some p =>
        obtain ⟨q, c, _, _, hnbr, hmr, _⟩ := (bfs_spec pf start goal board hne).1 p hres
        exact absurd hnbr (hno c (q.length - 1) hmr.1)
  · intro p hp hne
    obtain ⟨q, c, hpe, htrail, _, _, _⟩ := (bfs_spec pf start goal board hne).1 p hp
    exact ⟨q, hpe, htrail.1, fun x hx => (htrail.2.2.2 x hx).1⟩

/-- Witness for `bfs_traversability_amended` on a concrete grid with an
unreachable goal. -/
theorem bfs_traversability_amended_witness :
    (Pathfinder.mk 2 2).bfs (0, 0) (5, 5) [[0, 0], [0, 0]] = none ↔
      ((0, 0) : Pos) ≠ (5, 5) ∧ ∀ c k,
        relN (stepE (Pathfinder.mk 2 2) [[0, 0], [0, 0]] (5, 5)) k (0, 0) c →
          ¬ nbr c (5, 5) :=
  (bfs_traversability_amended (Pathfinder.mk 2 2) [[0, 0], [0, 0]] (0, 0) (5, 5)
    ⟨rfl, by decide⟩).1

theorem chain'_and {R : Pos → Pos → Prop} {Q : Pos → Prop} :
    ∀ (l : List Pos), List.Chain' R l → (∀ x ∈ l.tail, Q x) →
      List.Chain' (fun u v => R u v ∧ Q v) l := by
  intro l
  induction l with
  | nil => intro _ _; exact List.chain'_nil
  | cons x t ih =>
    intro hc hq
    cases t with
    | nil => exact List.chain'_singleton x
    | cons y s =>
      have hc' := List.chain'_cons.mp hc
      refine List.chain'_cons.mpr ⟨⟨hc'.1, hq y (by simp)⟩, ?_⟩
      exact ih hc'.2 fun z hz => hq z (List.mem_cons_of_mem y hz)

theorem chain'_tail_targets {R : Pos → Pos → Prop} :
    ∀ (l : List Pos), List.Chain' R l → ∀ x ∈ l.tail, ∃ u, R u x := by
  intro l
  induction l with
  | nil => intro _ x hx; simp at hx
  | cons a t ih =>
    intro hc x hx
    cases t with
    | nil => simp at hx
    | cons y s =>
      have hc' := List.chain'_cons.mp hc
      simp only [List.tail_cons] at hx
      rcases List.mem_cons.mp hx with rfl | hx
      · exact ⟨a, hc'.1⟩
      · exact ih hc'.2 x (by simpa using hx)

theorem minF_decompose {pf : Pathfinder} {board : Board} {start goal : Pos} {m : Nat}
    (hne : start ≠ goal) (hm : MinReach (stepV pf board) start goal m) :
    1 ≤ m ∧ ∃ c, relN (stepE pf board goal) (m - 1) start c ∧ nbr c goal := by
  have hm1 : 1 ≤ m := by
    cases m with
    | zero => exact absurd (show start = goal from hm.1) hne
    | succ n => omega
  obtain ⟨l, hlen, hh, hl, hc, _⟩ := relN_to_chain hm.1
  have hlne : l ≠ [] := by
    intro h
    rw [h] at hh
    simp at hh
  have hglast : l.getLast hlne = goal := by
    have h1 : l.getLast? = some (l.getLast hlne) := List.getLast?_eq_getLast l hlne
    rw [hl] at h1
    exact (Option.some.inj h1).symm
  obtain ⟨l', hsplit⟩ : ∃ l', l = l' ++ [goal] :=
    ⟨l.dropLast, by rw [← hglast]; exact (List.dropLast_append_getLast hlne).symm⟩
  have hl'len : l'.length = m := by
    have := hlen
    rw [hsplit] at this
    simp only [List.length_append, List.length_singleton] at this
    omega
  have hl'ne : l' ≠ [] := by
    intro h
    rw [h] at hl'len
    simp at hl'len
    omega
  by_cases hgmem : goal ∈ l'
  · exfalso
    obtain ⟨l1, l2, rfl⟩ := List.append_of_mem hgmem
    have hpre : (l1 ++ [goal]) <+: l :=
      ⟨l2 ++ [goal], by rw [hsplit]; simp⟩
    have hchain1 : List.Chain' (stepV pf board) (l1 ++ [goal]) := hc.prefix hpre
    have hl1ne : l1 ≠ [] := by
      intro h
      subst h
      have : l.head? = some goal := by
        rw [hsplit]
        simp
      rw [hh] at this
      exact hne (Option.some.inj this)
    have hhead1 : (l1 ++ [goal]).head? = some start := by
      have : l.head? = (l1 ++ [goal]).head? := by
        rw [hsplit]
        cases l1 with
        | nil => exact absurd rfl hl1ne
        | cons a t => simp
      rw [← this, hh]
    have hwalk : relN (stepV pf board) ((l1 ++ [goal]).length - 1) start goal :=
      chain_to_relN _ hhead1 (List.getLast?_concat l1) hchain1
    have hmin := hm.2 _ hwalk
    have : (l1 ++ [goal]).length - 1 < m := by
      have h2 : l.length = m + 1 := hlen
      rw [hsplit] at h2
      simp only [List.length_append, List.length_cons, List.length_singleton] at h2 ⊢
      omega
    omega
  · have hchain' : List.Chain' (stepV pf board) l' :=
      hc.prefix ⟨[goal], hsplit.symm⟩
    have hhead' : l'.head? = some start := by
      have : l.head? = l'.head? := by
        rw [hsplit]
        cases l' with
        | nil => exact absurd rfl hl'ne
        | cons a t => simp
      rw [← this, hh]
    have htail : ∀ x ∈ l'.tail, x ≠ goal := by
      intro x hx
      intro h
      subst h
      exact hgmem (List.mem_of_mem_tail hx)
    have hchainE : List.Chain' (stepE pf board goal) l' :=
      chain'_and l' hchain' htail
    set c := l'.getLast hl'ne with hcdef
    have hlast' : l'.getLast? = some c := List.getLast?_eq_getLast l' hl'ne
    have hrel : relN (stepE pf board goal) (l'.length - 1) start c :=
      chain_to_relN l' hhead' hlast' hchainE
    have hlink : stepV pf board c goal := by
      rw [hsplit] at hc
      have hsp := List.chain'_append.mp hc
      exact hsp.2.2 c (by rw [hlast']; rfl) goal (by simp)
    refine ⟨hm1, c, ?_, hlink.1⟩
    rw [hl'len] at hrel
    exact hrel

theorem minF_compose {pf : Pathfinder} {board : Board} {goal start c : Pos} {k : Nat}
    (hgoal : pf.passable board goal = true)
    (hE : relN (stepE pf board goal) k start c) (hnbr : nbr c goal) :
    relN (stepV pf board) (k + 1) start goal :=
  relN_snoc.mpr ⟨c, relN_mono (fun _ _ h => h.1) hE, ⟨hnbr, hgoal⟩⟩

/-! ## Theorems: `a_star` -/

theorem entryLe_refl (a : Nat × Pos) : entryLe a a = true := by
  simp [entryLe]

theorem entryLe_fst {a b : Nat × Pos} (h : entryLe a b = true) : a.1 ≤ b.1 := by
  simp only [entryLe, Bool.or_eq_true, Bool.and_eq_true, decide_eq_true_eq] at h
  rcases h with h | ⟨h, _⟩ <;> omega

theorem not_entryLe_fst {a b : Nat × Pos} (h : ¬ entryLe a b = true) : b.1 ≤ a.1 := by
  simp only [entryLe, Bool.or_eq_true, Bool.and_eq_true, decide_eq_true_eq,
    not_or, not_and] at h
  omega

theorem popMin_none : ∀ {l : List (Nat × Pos)}, popMin l = none → l = [] := by
  intro l h
  cases l with
  | nil => rfl
  | cons e rest =>
    exfalso
    simp only [popMin] at h
    cases hrest : popMin rest with
    | none => rw [hrest] at h; simp at h
    | some p =>
      rw [hrest] at h
      obtain ⟨m, r⟩ := p
      by_cases hle : entryLe e m <;> simp [hle] at h

theorem popMin_spec : ∀ {l : List (Nat × Pos)} {m : Nat × Pos} {r : List (Nat × Pos)},
    popMin l = some (m, r) → l.Perm (m :: r) ∧ ∀ e ∈ l, m.1 ≤ e.1 := by
  intro l
  induction l with
  | nil => intro m r h; simp [popMin] at h
  | cons e rest ih =>
    intro m r h
    cases hrest : popMin rest with
    | none =>
      have hre := popMin_none hrest
      subst hre
      simp only [popMin, Option.some.injEq, Prod.mk.injEq] at h
      obtain ⟨rfl, rfl⟩ := h
      refine ⟨List.Perm.refl _, ?_⟩
      intro x hx
      simp only [List.mem_singleton] at hx
      subst hx
      exact le_refl _
    | some p =>
      obtain ⟨m0, r0⟩ := p
      obtain ⟨hperm0, hmin0⟩ := ih hrest
      by_cases hle : entryLe e m0 = true
      · simp only [popMin, hrest, hle, if_true, Option.some.injEq, Prod.mk.injEq] at h
        obtain ⟨rfl, rfl⟩ := h
        refine ⟨List.Perm.refl _, ?_⟩
        intro x hx
        rcases List.mem_cons.mp hx with rfl | hx
        · exact le_refl _
        · exact le_trans (entryLe_fst hle) (hmin0 x hx)
      · simp only [popMin, hrest, hle, if_false, Option.some.injEq, Prod.mk.injEq] at h
        obtain ⟨rfl, rfl⟩ := h
        refine ⟨List.Perm.trans (List.Perm.cons e hperm0) (List.Perm.swap m e r0), ?_⟩
        intro x hx
        rcases List.mem_cons.mp hx with rfl | hx
        · exact not_entryLe_fst hle
        · exact hmin0 x hx

theorem lookupA_nil {α : Type} (x : Pos) : lookupA ([] : List (Pos × α)) x = none := rfl

theorem lookupA_cons {α : Type} (k : Pos) (a : α) (l : List (Pos × α)) (x : Pos) :
    lookupA ((k, a) :: l) x = if k = x then some a else lookupA l x := by
  simp only [lookupA, List.find?]
  by_cases h : k = x
  · simp [h]
  · simp [h]

theorem nbr_ne {u v : Pos} (h : nbr u v) : v ≠ u := by
  obtain ⟨d, hd, rfl⟩ := h
  simp only [directions, List.mem_cons, List.not_mem_nil, or_false] at hd
  rcases hd with rfl | rfl | rfl | rfl <;>
    · intro hc
      obtain ⟨h1, h2⟩ := Prod.mk.injEq .. ▸ hc
      omega

theorem frontier_lemma {R : Pos → Pos → Prop} {vis : Finset Pos} :
    ∀ {k : Nat} {a b : Pos}, relN R k a b → a ∈ vis → b ∉ vis →
      ∃ j m x y, j + 1 + m = k ∧ x ∈ vis ∧ y ∉ vis ∧ R x y ∧
        relN R j a x ∧ relN R m y b := by
  intro k
  induction k with
  | zero =>
    intro a b h ha hb
    have hab : a = b := h
    exact absurd (hab ▸ ha) hb
  | succ k ih =>
    intro a b h ha hb
    obtain ⟨c, hac, hcb⟩ := relN_snoc.mp h
    by_cases hc : c ∈ vis
    · exact ⟨k, 0, c, b, by omega, hc, hb, hcb, hac, rfl⟩
    · obtain ⟨j, m, x, y, hjm, hx, hy, hR, hax, hyc⟩ := ih hac ha hc
      exact ⟨j, m + 1, x, y, by omega, hx, hy, hR, hax, relN_snoc.mpr ⟨c, hyc, hcb⟩⟩

theorem phiG_le {pf : Pathfinder} {gs : List (Pos × Nat)}
    (hb : ∀ v gv, lookupA gs v = some gv → gv ≤ pf.width * pf.height + 1) (v : Pos) :
    phiG pf gs v ≤ pf.width * pf.height + 2 := by
  unfold phiG
  cases h : lookupA gs v with
  | none => exact le_refl _
  | some g => exact le_trans (hb v g h) (by omega)

theorem gTrail_lookup {pf : Pathfinder} {board : Board} {start : Pos}
    {cf : List (Pos × Pos)} {gs : List (Pos × Nat)} {v : Pos} {gv : Nat} {l : List Pos}
    (h : GTrail pf board start cf gs v gv l) : lookupA gs v = some gv := by
  cases h with
  | base h0 hcf => exact h0
  | step hg hcf ht hlt hnbr hpass => exact hg

theorem gTrail_props {pf : Pathfinder} {board : Board} {start : Pos}
    {cf : List (Pos × Pos)} {gs : List (Pos × Nat)} :
    ∀ {v : Pos} {gv : Nat} {l : List Pos}, GTrail pf board start cf gs v gv l →
      l ≠ [] ∧ l.head? = some start ∧ l.getLast? = some v ∧ List.Chain' nbr l ∧
        (∀ x ∈ l.tail, pf.passable board x = true) ∧ l.length ≤ gv + 1 := by
  intro v gv l h
  induction h with
  | base h0 hcf =>
    exact ⟨by simp, rfl, rfl, List.chain'_singleton _, by simp, by simp⟩
  | step hg hcf ht hlt hnbr hpass ih =>
    rename_i u v gu gv l
    obtain ⟨hne, hh, hl, hc, htail, hlen⟩ := ih
    obtain ⟨a, tl, rfl⟩ := List.exists_cons_of_ne_nil hne
    refine ⟨by simp, ?_, List.getLast?_concat _, ?_, ?_, ?_⟩
    · simpa using hh
    · refine List.chain'_append.mpr ⟨hc, List.chain'_singleton _, ?_⟩
      intro x hx y hy
      rw [hl] at hx
      simp only [Option.mem_def, Option.some.injEq] at hx
      simp only [List.head?_cons, Option.mem_def, Option.some.injEq] at hy
      subst hx
      subst hy
      exact hnbr
    · intro x hx
      simp only [List.cons_append, List.tail_cons] at hx
      rcases List.mem_append.mp hx with hx | hx
      · exact htail x hx
      · simp only [List.mem_singleton] at hx
        subst hx
        exact hpass
    · simp only [List.length_append, List.length_cons, List.length_singleton,
        List.length_nil] at hlen ⊢
      omega

theorem gTrail_relN {pf : Pathfinder} {board : Board} {start : Pos}
    {cf : List (Pos × Pos)} {gs : List (Pos × Nat)} {v : Pos} {gv : Nat} {l : List Pos}
    (h : GTrail pf board start cf gs v gv l) :
    relN (stepV pf board) (l.length - 1) start v := by
  obtain ⟨hne, hh, hl, hc, htail, hlen⟩ := gTrail_props h
  have hchain := chain'_strengthen (Q := fun x => pf.passable board x = true) l hc htail
  exact chain_to_relN l hh hl (hchain.imp fun a b hab => hab)

theorem gTrail_mem_g {pf : Pathfinder} {board : Board} {start : Pos}
    {cf : List (Pos × Pos)} {gs : List (Pos × Nat)} :
    ∀ {v : Pos} {gv : Nat} {l : List Pos}, GTrail pf board start cf gs v gv l →
      ∀ x ∈ l, ∃ gx, lookupA gs x = some gx ∧ gx ≤ gv := by
  intro v gv l h
  induction h with
  | base h0 hcf =>
    intro x hx
    simp only [List.mem_singleton] at hx
    subst hx
    exact ⟨0, h0, le_refl 0⟩
  | step hg hcf ht hlt hnbr hpass ih =>
    intro x hx
    rcases List.mem_append.mp hx with hx | hx
    · obtain ⟨gx, hgx, hle⟩ := ih x hx
      exact ⟨gx, hgx, by omega⟩
    · simp only [List.mem_singleton] at hx
      subst hx
      exact ⟨_, hg, le_refl _⟩

theorem gTrail_lift {pf : Pathfinder} {board : Board} {start : Pos}
    {cf : List (Pos × Pos)} {gs : List (Pos × Nat)} {nb c' : Pos} {t : Nat} :
    ∀ {v : Pos} {gv : Nat} {l : List Pos}, GTrail pf board start cf gs v gv l → nb ∉ l →
      GTrail pf board start ((nb, c') :: cf) ((nb, t) :: gs) v gv l := by
  intro v gv l h
  induction h with
  | base h0 hcf =>
    intro hnb
    simp only [List.mem_singleton] at hnb
    refine GTrail.base ?_ ?_
    · rw [lookupA_cons, if_neg hnb]
      exact h0
    · rw [lookupA_cons, if_neg hnb]
      exact hcf
  | step hg hcf ht hlt hnbr hpass ih =>
    intro hnb
    simp only [List.mem_append, List.mem_singleton, not_or] at hnb
    obtain ⟨hnbl, hnev⟩ := hnb
    exact GTrail.step (by rw [lookupA_cons, if_neg hnev]; exact hg)
      (by rw [lookupA_cons, if_neg hnev]; exact hcf) (ih hnbl) hlt hnbr hpass

theorem gTrail_update {pf : Pathfinder} {board : Board} {start nb cur : Pos}
    {cf : List (Pos × Pos)} {gs : List (Pos × Nat)} {t : Nat}
    (hstart : start ≠ nb)
    (hnbTrail : ∃ lnb, GTrail pf board start ((nb, cur) :: cf) ((nb, t) :: gs) nb t lnb)
    (htlt : ∀ gn, lookupA gs nb = some gn → t < gn) :
    ∀ {v : Pos} {gv : Nat} {l : List Pos}, GTrail pf board start cf gs v gv l →
      ∃ l', GTrail pf board start ((nb, cur) :: cf) ((nb, t) :: gs) v
        (if v = nb then t else gv) l' := by
  intro v gv l h
  induction h with
  | base h0 hcf =>
    rw [if_neg hstart]
    refine ⟨[start], GTrail.base ?_ ?_⟩
    · rw [lookupA_cons, if_neg (Ne.symm hstart)]
      exact h0
    · rw [lookupA_cons, if_neg (Ne.symm hstart)]
      exact hcf
  | step hg hcf ht hlt hnbr hpass ih =>
    rename_i u v gu gv l
    by_cases hv : v = nb
    · rw [if_pos hv]
      subst hv
      exact hnbTrail
    · rw [if_neg hv]
      obtain ⟨l', hl'⟩ := ih
      have hnv : nb ≠ v := fun h => hv h.symm
      by_cases hu : u = nb
      · rw [if_pos hu] at hl'
        have htgv : t < gv := by
          have := htlt gu (hu ▸ gTrail_lookup ht)
          omega
        exact ⟨l' ++ [v], GTrail.step (by rw [lookupA_cons, if_neg hnv]; exact hg)
          (by rw [lookupA_cons, if_neg hnv]; exact hcf) hl' htgv hnbr hpass⟩
      · rw [if_neg hu] at hl'
        exact ⟨l' ++ [v], GTrail.step (by rw [lookupA_cons, if_neg hnv]; exact hg)
          (by rw [lookupA_cons, if_neg hnv]; exact hcf) hl' hlt hnbr hpass⟩

theorem reconstruct_eq {pf : Pathfinder} {board : Board} {start : Pos}
    {cf : List (Pos × Pos)} {gs : List (Pos × Nat)} :
    ∀ {v : Pos} {gv : Nat} {l : List Pos}, GTrail pf board start cf gs v gv l →
      ∀ (fuel : Nat) (acc : List Pos), l.length ≤ fuel →
        reconstructPath cf fuel v acc = acc ++ l.reverse.tail := by
  intro v gv l h
  induction h with
  | base h0 hcf =>
    intro fuel acc hlen
    cases fuel with
    | zero => simp at hlen
    | succ f =>
      simp only [reconstructPath, hcf]
      simp
  | step hg hcf ht hlt hnbr hpass ih =>
    rename_i u v gu gv l
    intro fuel acc hlen
    cases fuel with
    | zero => simp at hlen
    | succ f =>
      simp only [reconstructPath, hcf]
      have hlf : l.length ≤ f := by
        simp only [List.length_append, List.length_singleton] at hlen
        omega
      rw [ih f (acc ++ [u]) hlf]
      have hlast : l.getLast? = some u := (gTrail_props ht).2.2.1
      have hrev : u :: l.reverse.tail = l.reverse :=
        List.cons_head?_tail (by rw [List.head?_reverse]; exact hlast)
      rw [List.reverse_append]
      simp only [List.reverse_singleton, List.singleton_append, List.tail_cons]
      rw [List.append_assoc, List.singleton_append, hrev]

theorem astar_pop_opt {pf : Pathfinder} {board : Board} {start goal : Pos} {st : AState}
    (hInv : AInv pf board start goal st) (hstart : start ∈ st.visited)
    {f : Nat} {cur : Pos} {rest : List (Nat × Pos)}
    (hpop : popMin st.openSet = some ((f, cur), rest)) (hcur : cur ∉ st.visited)
    {gcur : Nat} (hg : lookupA st.gScore cur = some gcur) :
    MinReach (stepV pf board) start cur gcur := by
  obtain ⟨l, htrail⟩ := hInv.g_trail cur gcur hg
  have hwalk : relN (stepV pf board) (l.length - 1) start cur := gTrail_relN htrail
  obtain ⟨d, hd⟩ := exists_minReach ⟨_, hwalk⟩
  have hlen : l.length ≤ gcur + 1 := (gTrail_props htrail).2.2.2.2.2
  have hdle : d ≤ gcur := by
    have := hd.2 _ hwalk
    omega
  obtain ⟨j, m, x, y, hjm, hx, hy, hxy, hax, hyb⟩ := frontier_lemma hd.1 hstart hcur
  obtain ⟨gx, hgx, hgxmin⟩ := hInv.vis_opt x hx
  have hgxj : gx ≤ j := hgxmin.2 j hax
  obtain ⟨gy, hgy, hgyle⟩ := hInv.vis_expanded x hx gx hgx y hxy
  have hyopen : (gy + heuristic goal y, y) ∈ st.openSet := hInv.open_entry y gy hgy hy
  obtain ⟨hperm, hmin⟩ := popMin_spec hpop
  have hfle : f ≤ gy + heuristic goal y := hmin _ hyopen
  have hpoppedmem : (f, cur) ∈ st.openSet := hperm.mem_iff.mpr (List.mem_cons_self _ _)
  obtain ⟨g', hg', hsound⟩ := hInv.open_sound (f, cur) hpoppedmem
  have h2 : lookupA st.gScore cur = some g' := hg'
  rw [hg] at h2
  have hgeq : g' = gcur := (Option.some.inj h2).symm
  subst hgeq
  have hsound2 : g' + heuristic goal cur ≤ f := hsound
  have hcons : heuristic goal y ≤ m + heuristic goal cur := heuristic_consistent goal hyb
  have : g' = d := by omega
  exact this ▸ hd

theorem astarRelax_core {pf : Pathfinder} {board : Board} {start goal cur nb : Pos}
    {gcur : Nat} {st st' : AState}
    (hcore : AInvCore pf board start goal cur st)
    (hstartvis : start ∈ st.visited)
    (hg : lookupA st.gScore cur = some gcur)
    (hmin : MinReach (stepV pf board) start cur gcur)
    (hgb : gcur ≤ pf.width * pf.height)
    (hnbr : nbr cur nb) (hpass : pf.passable board nb = true)
    (hbetter : ∀ gn, lookupA st.gScore nb = some gn → gcur + 1 < gn)
    (hst' : st' = { openSet := st.openSet ++ [(gcur + 1 + heuristic goal nb, nb)]
                    cameFrom := (nb, cur) :: st.cameFrom
                    gScore := (nb, gcur + 1) :: st.gScore
                    fScore := (nb, gcur + 1 + heuristic goal nb) :: st.fScore
                    visited := st.visited }) :
    AInvCore pf board start goal cur st' ∧
    lookupA st'.gScore nb = some (gcur + 1) ∧
    (∀ v gv, lookupA st.gScore v = some gv →
      ∃ gv', lookupA st'.gScore v = some gv' ∧ gv' ≤ gv) ∧
    st'.visited = st.visited ∧
    measureA pf start st' ≤ measureA pf start st := by
  have hOpen : st'.openSet = st.openSet ++ [(gcur + 1 + heuristic goal nb, nb)] := by
    rw [hst']
  have hCf : st'.cameFrom = (nb, cur) :: st.cameFrom := by rw [hst']
  have hGs : st'.gScore = (nb, gcur + 1) :: st.gScore := by rw [hst']
  have hVis : st'.visited = st.visited := by rw [hst']
  have hnb_unvis : nb ∉ st.visited := by
    intro hmem
    obtain ⟨gn, hgn, hmn⟩ := hcore.vis_opt nb hmem
    have hlt := hbetter gn hgn
    have hreach : relN (stepV pf board) (gcur + 1) start nb :=
      relN_snoc.mpr ⟨cur, hmin.1, ⟨hnbr, hpass⟩⟩
    have := hmn.2 _ hreach
    omega
  have hnb_ne_start : start ≠ nb := fun h => hnb_unvis (h ▸ hstartvis)
  have hnb_ne_cur : nb ≠ cur := nbr_ne hnbr
  obtain ⟨lcur, hlcur⟩ := hcore.g_trail cur gcur hg
  have hnb_notmem : nb ∉ lcur := by
    intro hmem
    obtain ⟨gx, hgx, hle⟩ := gTrail_mem_g hlcur nb hmem
    have := hbetter gx hgx
    omega
  have hlift : GTrail pf board start ((nb, cur) :: st.cameFrom)
      ((nb, gcur + 1) :: st.gScore) cur gcur lcur := gTrail_lift hlcur hnb_notmem
  have htrail_nb : GTrail pf board start ((nb, cur) :: st.cameFrom)
      ((nb, gcur + 1) :: st.gScore) nb (gcur + 1) (lcur ++ [nb]) :=
    GTrail.step (by rw [lookupA_cons, if_pos rfl]) (by rw [lookupA_cons, if_pos rfl])
      hlift (by omega) hnbr hpass
  have hlook_nb : lookupA st'.gScore nb = some (gcur + 1) := by
    rw [hGs, lookupA_cons, if_pos rfl]
  have hmono : ∀ v gv, lookupA st.gScore v = some gv →
      ∃ gv', lookupA st'.gScore v = some gv' ∧ gv' ≤ gv := by
    intro v gv hv
    by_cases hvn : nb = v
    · subst hvn
      have := hbetter gv hv
      exact ⟨gcur + 1, hlook_nb, by omega⟩
    · exact ⟨gv, by rw [hGs, lookupA_cons, if_neg hvn]; exact hv, le_refl _⟩
  refine ⟨?_, hlook_nb, hmono, hVis, ?_⟩
  · refine ⟨?_, ?_, ?_, ?_, ?_, ?_, ?_, ?_, ?_⟩
    · rw [hGs, lookupA_cons, if_neg (Ne.symm hnb_ne_start)]
      exact hcore.g_start
    · rw [hCf, lookupA_cons, if_neg (Ne.symm hnb_ne_start)]
      exact hcore.cf_start
    · intro v gv hv
      rw [hGs, lookupA_cons] at hv
      rw [hGs, hCf]
      by_cases hvn : nb = v
      · rw [if_pos hvn] at hv
        subst hvn
        obtain rfl := Option.some.inj hv
        exact ⟨_, htrail_nb⟩
      · rw [if_neg hvn] at hv
        obtain ⟨l, hl⟩ := hcore.g_trail v gv hv
        have := gTrail_update hnb_ne_start ⟨_, htrail_nb⟩ hbetter hl
        rw [if_neg (fun h => hvn h.symm)] at this
        exact this
    · intro v gv hv
      rw [hGs, lookupA_cons] at hv
      by_cases hvn : nb = v
      · rw [if_pos hvn] at hv
        obtain rfl := Option.some.inj hv
        omega
      · rw [if_neg hvn] at hv
        exact hcore.g_bound v gv hv
    · intro v gv hv
      rw [hGs, lookupA_cons] at hv
      by_cases hvn : nb = v
      · exact Or.inr (hvn ▸ hpass)
      · rw [if_neg hvn] at hv
        exact hcore.g_cells v gv hv
    · intro v hv
      rw [hVis] at hv
      obtain ⟨gv, hgv, hmv⟩ := hcore.vis_opt v hv
      have hvn : nb ≠ v := fun h => hnb_unvis (h ▸ hv)
      exact ⟨gv, by rw [hGs, lookupA_cons, if_neg hvn]; exact hgv, hmv⟩
    · intro v hv hvc gv hgv w hw
      rw [hVis] at hv
      have hvn : nb ≠ v := fun h => hnb_unvis (h ▸ hv)
      rw [hGs, lookupA_cons, if_neg hvn] at hgv
      obtain ⟨gw, hgw, hgwle⟩ := hcore.vis_exp v hv hvc gv hgv w hw
      by_cases hwn : nb = w
      · subst hwn
        have := hbetter gw hgw
        exact ⟨gcur + 1, hlook_nb, by omega⟩
      · exact ⟨gw, by rw [hGs, lookupA_cons, if_neg hwn]; exact hgw, hgwle⟩
    · intro v gv hgv hvis
      rw [hVis] at hvis
      rw [hGs, lookupA_cons] at hgv
      rw [hOpen]
      by_cases hvn : nb = v
      · rw [if_pos hvn] at hgv
        obtain rfl := Option.some.inj hgv
        subst hvn
        exact List.mem_append_right _ (List.mem_singleton.mpr rfl)
      · rw [if_neg hvn] at hgv
        exact List.mem_append_left _ (hcore.open_entry v gv hgv hvis)
    · intro e he
      rw [hOpen] at he
      rcases List.mem_append.mp he with he | he
      · obtain ⟨gv, hgv, hle⟩ := hcore.open_sound e he
        by_cases hvn : nb = e.2
        · have hlt := hbetter gv (hvn ▸ hgv)
          refine ⟨gcur + 1, ?_, by omega⟩
          rw [hGs, lookupA_cons, if_pos hvn]
        · exact ⟨gv, by rw [hGs, lookupA_cons, if_neg hvn]; exact hgv, hle⟩
      · simp only [List.mem_singleton] at he
        subst he
        exact ⟨gcur + 1, hlook_nb, le_refl _⟩
  · unfold measureA
    rw [hOpen, hVis, List.length_append, List.length_singleton]
    have hnbD : nb ∈ cellsPlus pf start \ st.visited :=
      Finset.mem_sdiff.mpr ⟨mem_cellsPlus_of_passable hpass, hnb_unvis⟩
    have h1 : ((cellsPlus pf start \ st.visited).erase nb).sum (phiG pf st'.gScore) +
        phiG pf st'.gScore nb =
        (cellsPlus pf start \ st.visited).sum (phiG pf st'.gScore) :=
      Finset.sum_erase_add (cellsPlus pf start \ st.visited) (phiG pf st'.gScore) hnbD
    have h2 : ((cellsPlus pf start \ st.visited).erase nb).sum (phiG pf st.gScore) +
        phiG pf st.gScore nb =
        (cellsPlus pf start \ st.visited).sum (phiG pf st.gScore) :=
      Finset.sum_erase_add (cellsPlus pf start \ st.visited) (phiG pf st.gScore) hnbD
    have hcongr : ((cellsPlus pf start \ st.visited).erase nb).sum (phiG pf st'.gScore) =
        ((cellsPlus pf start \ st.visited).erase nb).sum (phiG pf st.gScore) := by
      refine Finset.sum_congr rfl ?_
      intro x hx
      have hxn : nb ≠ x := fun h => (Finset.ne_of_mem_erase hx) h.symm
      unfold phiG
      rw [hGs, lookupA_cons, if_neg hxn]
    have hphi' : phiG pf st'.gScore nb = gcur + 1 := by
      unfold phiG
      rw [hlook_nb]
    have hphi : gcur + 2 ≤ phiG pf st.gScore nb := by
      unfold phiG
      cases hnbl : lookupA st.gScore nb with
      | none =>
        show gcur + 2 ≤ pf.width * pf.height + 2
        omega
      | some gn =>
        have := hbetter gn hnbl
        show gcur + 2 ≤ gn
        omega
    omega

theorem astarExpand_cons (pf : Pathfinder) (board : Board) (goal cur : Pos)
    (dx dy : Int) (dirs : List (Int × Int)) (st : AState) :
    astarExpand pf board goal cur ((dx, dy) :: dirs) st =
      if pf.passable board (cur.1 + dx, cur.2 + dy) = true then
        match lookupA st.gScore cur with
        | none => astarExpand pf board goal cur dirs st
        | some g =>
          if (match lookupA st.gScore (cur.1 + dx, cur.2 + dy) with
              | none => true
              | some gn => decide (g + 1 < gn)) = true then
            astarExpand pf board goal cur dirs
              { openSet := st.openSet ++
                  [(g + 1 + heuristic goal (cur.1 + dx, cur.2 + dy),
                    (cur.1 + dx, cur.2 + dy))]
                cameFrom := ((cur.1 + dx, cur.2 + dy), cur) :: st.cameFrom
                gScore := ((cur.1 + dx, cur.2 + dy), g + 1) :: st.gScore
                fScore := ((cur.1 + dx, cur.2 + dy),
                  g + 1 + heuristic goal (cur.1 + dx, cur.2 + dy)) :: st.fScore
                visited := st.visited }
          else astarExpand pf board goal cur dirs st
      else astarExpand pf board goal cur dirs st := rfl

theorem astarExpand_spec {pf : Pathfinder} {board : Board} {start goal cur : Pos}
    {gcur : Nat} :
    ∀ (dirs : List (Int × Int)) (st : AState),
      (∀ d ∈ dirs, d ∈ directions) →
      AInvCore pf board start goal cur st →
      start ∈ st.visited → cur ∈ st.visited →
      lookupA st.gScore cur = some gcur →
      MinReach (stepV pf board) start cur gcur →
      gcur ≤ pf.width * pf.height →
      AInvCore pf board start goal cur (astarExpand pf board goal cur dirs st) ∧
      (astarExpand pf board goal cur dirs st).visited = st.visited ∧
      (∀ v gv, lookupA st.gScore v = some gv →
        ∃ gv', lookupA (astarExpand pf board goal cur dirs st).gScore v = some gv' ∧
          gv' ≤ gv) ∧
      (∀ d ∈ dirs, pf.passable board (cur.1 + d.1, cur.2 + d.2) = true →
        ∃ gw, lookupA (astarExpand pf board goal cur dirs st).gScore
          (cur.1 + d.1, cur.2 + d.2) = some gw ∧ gw ≤ gcur + 1) ∧
      measureA pf start (astarExpand pf board goal cur dirs st) ≤ measureA pf start st := by
  intro dirs
  induction dirs with
  | nil =>
    intro st _ hcore hsv hcv hg hmin hgb
    exact ⟨hcore, rfl, fun v gv hv => ⟨gv, hv, le_refl _⟩, by simp, le_refl _⟩
  | cons d dirs ih =>
    intro st hdirs hcore hsv hcv hg hmin hgb
    obtain ⟨dx, dy⟩ := d
    have hdirs' : ∀ d ∈ dirs, d ∈ directions :=
      fun d hd => hdirs d (List.mem_cons_of_mem _ hd)
    rw [astarExpand_cons]
    simp only [hg]
    by_cases hpass : pf.passable board (cur.1 + dx, cur.2 + dy) = true
    · rw [if_pos hpass]
      cases hnb : lookupA st.gScore (cur.1 + dx, cur.2 + dy) with
      | none =>
        simp only [if_true]
        have hbetter : ∀ gn, lookupA st.gScore (cur.1 + dx, cur.2 + dy) = some gn →
            gcur + 1 < gn := by
          intro gn h
          rw [hnb] at h
          cases h
        have hnbr : nbr cur (cur.1 + dx, cur.2 + dy) :=
          nbr_of_dir (hdirs (dx, dy) (List.mem_cons_self _ _))
        obtain ⟨hcore', hlook, hmono, hviseq, hmeas⟩ :=
          astarRelax_core hcore hsv hg hmin hgb hnbr hpass hbetter rfl
        have hg' : lookupA ((((cur.1 + dx, cur.2 + dy), gcur + 1)) :: st.gScore) cur =
            some gcur := by
          rw [lookupA_cons, if_neg (nbr_ne hnbr)]
          exact hg
        obtain ⟨hcoreF, hvisF, hmonoF, hclosF, hmeasF⟩ :=
          ih _ hdirs' hcore' (hviseq ▸ hsv) (hviseq ▸ hcv) hg' hmin hgb
        refine ⟨hcoreF, by rw [hvisF, hviseq], ?_, ?_, le_trans hmeasF hmeas⟩
        · intro v gv hv
          obtain ⟨gv', hv', hle'⟩ := hmono v gv hv
          obtain ⟨gv'', hv'', hle''⟩ := hmonoF v gv' hv'
          exact ⟨gv'', hv'', le_trans hle'' hle'⟩
        · intro d hd hdpass
          rcases List.mem_cons.mp hd with hd | hd
          · obtain ⟨h1, h2⟩ := Prod.mk.injEq .. ▸ hd
            subst h1
            subst h2
            obtain ⟨gw, hgw, hgwle⟩ := hmonoF _ _ hlook
            exact ⟨gw, hgw, by omega⟩
          · exact hclosF d hd hdpass
      | some gn =>
        by_cases hlt : gcur + 1 < gn
        · simp only [hlt, decide_True, if_true]
          have hbetter : ∀ gn', lookupA st.gScore (cur.1 + dx, cur.2 + dy) = some gn' →
              gcur + 1 < gn' := by
            intro gn' h
            rw [hnb] at h
            obtain rfl := Option.some.inj h
            exact hlt
          have hnbr : nbr cur (cur.1 + dx, cur.2 + dy) :=
            nbr_of_dir (hdirs (dx, dy) (List.mem_cons_self _ _))
          obtain ⟨hcore', hlook, hmono, hviseq, hmeas⟩ :=
            astarRelax_core hcore hsv hg hmin hgb hnbr hpass hbetter rfl
          have hg' : lookupA ((((cur.1 + dx, cur.2 + dy), gcur + 1)) :: st.gScore) cur =
              some gcur := by
            rw [lookupA_cons, if_neg (nbr_ne hnbr)]
            exact hg
          obtain ⟨hcoreF, hvisF, hmonoF, hclosF, hmeasF⟩ :=
            ih _ hdirs' hcore' (hviseq ▸ hsv) (hviseq ▸ hcv) hg' hmin hgb
          refine ⟨hcoreF, by rw [hvisF, hviseq], ?_, ?_, le_trans hmeasF hmeas⟩
          · intro v gv hv
            obtain ⟨gv', hv', hle'⟩ := hmono v gv hv
            obtain ⟨gv'', hv'', hle''⟩ := hmonoF v gv' hv'
            exact ⟨gv'', hv'', le_trans hle'' hle'⟩
          · intro d hd hdpass
            rcases List.mem_cons.mp hd with hd | hd
            · obtain ⟨h1, h2⟩ := Prod.mk.injEq .. ▸ hd
              subst h1
              subst h2
              obtain ⟨gw, hgw, hgwle⟩ := hmonoF _ _ hlook
              exact ⟨gw, hgw, by omega⟩
            · exact hclosF d hd hdpass
        · simp only [hlt, decide_False, if_false]
          obtain ⟨hcoreF, hvisF, hmonoF, hclosF, hmeasF⟩ :=
            ih _ hdirs' hcore hsv hcv hg hmin hgb
          refine ⟨hcoreF, hvisF, hmonoF, ?_, hmeasF⟩
          intro d hd hdpass
          rcases List.mem_cons.mp hd with hd | hd
          · obtain ⟨h1, h2⟩ := Prod.mk.injEq .. ▸ hd
            subst h1
            subst h2
            obtain ⟨gw, hgw, hgwle⟩ := hmonoF _ _ hnb
            exact ⟨gw, hgw, by omega⟩
          · exact hclosF d hd hdpass
    · rw [if_neg hpass]
      obtain ⟨hcoreF, hvisF, hmonoF, hclosF, hmeasF⟩ :=
        ih _ hdirs' hcore hsv hcv hg hmin hgb
      refine ⟨hcoreF, hvisF, hmonoF, ?_, hmeasF⟩
      intro d hd hdpass
      rcases List.mem_cons.mp hd with hd | hd
      · obtain ⟨h1, h2⟩ := Prod.mk.injEq .. ▸ hd
        subst h1
        subst h2
        exact absurd hdpass hpass
      · exact hclosF d hd hdpass

theorem astarExpand_full {pf : Pathfinder} {board : Board} {start goal cur : Pos}
    {gcur : Nat} {st : AState}
    (hcore : AInvCore pf board start goal cur st)
    (hsv : start ∈ st.visited) (hcv : cur ∈ st.visited)
    (hg : lookupA st.gScore cur = some gcur)
    (hmin : MinReach (stepV pf board) start cur gcur)
    (hgb : gcur ≤ pf.width * pf.height) :
    AInv pf board start goal (astarExpand pf board goal cur directions st) ∧
    (astarExpand pf board goal cur directions st).visited = st.visited ∧
    measureA pf start (astarExpand pf board goal cur directions st) ≤
      measureA pf start st := by
  obtain ⟨hcoreF, hvisF, hmonoF, hclosF, hmeasF⟩ :=
    astarExpand_spec directions st (fun d hd => hd) hcore hsv hcv hg hmin hgb
  refine ⟨?_, hvisF, hmeasF⟩
  refine ⟨hcoreF.g_start, hcoreF.cf_start, hcoreF.g_trail, hcoreF.g_bound,
    hcoreF.g_cells, hcoreF.vis_opt, ?_, hcoreF.open_entry, hcoreF.open_sound⟩
  intro v hv gv hgv w hw
  by_cases hvc : v = cur
  · subst hvc
    obtain ⟨g2, hg2, hm2⟩ := hcoreF.vis_opt _ hv
    rw [hgv] at hg2
    obtain rfl := Option.some.inj hg2
    have hgveq : gv = gcur := minReach_unique hm2 hmin
    obtain ⟨⟨dd, hdd, rfl⟩, hpassw⟩ := hw
    obtain ⟨gw, hgw, hgwle⟩ := hclosF dd hdd hpassw
    exact ⟨gw, hgw, by omega⟩
  · exact hcoreF.vis_exp v hv hvc gv hgv w hw

theorem astar_stuck {pf : Pathfinder} {board : Board} {start goal : Pos} {st : AState}
    (hInv : AInv pf board start goal st) (hsv : start ∈ st.visited)
    (hopen : st.openSet = []) :
    ∀ b : Pos, b ∉ st.visited → ∀ k, ¬ relN (stepV pf board) k start b := by
  intro b hb k hk
  obtain ⟨j, m, x, y, hjm, hx, hy, hxy, hax, hyb⟩ := frontier_lemma hk hsv hb
  obtain ⟨gx, hgx, hgxm⟩ := hInv.vis_opt x hx
  obtain ⟨gy, hgy, _⟩ := hInv.vis_expanded x hx gx hgx y hxy
  have := hInv.open_entry y gy hgy hy
  rw [hopen] at this
  exact absurd this (List.not_mem_nil _)

theorem astar_skip_inv {pf : Pathfinder} {board : Board} {start goal : Pos} {st : AState}
    {f : Nat} {cur : Pos} {rest : List (Nat × Pos)}
    (hInv : AInv pf board start goal st)
    (hpop : popMin st.openSet = some ((f, cur), rest)) (hcv : cur ∈ st.visited) :
    AInv pf board start goal { st with openSet := rest } := by
  obtain ⟨hperm, hmin⟩ := popMin_spec hpop
  refine ⟨hInv.g_start, hInv.cf_start, hInv.g_trail, hInv.g_bound, hInv.g_cells,
    hInv.vis_opt, hInv.vis_expanded, ?_, ?_⟩
  · intro v gv hgv hvv
    have hmem := hInv.open_entry v gv hgv hvv
    have hmem2 := hperm.mem_iff.mp hmem
    rcases List.mem_cons.mp hmem2 with heq | h
    · have hveq : v = cur := congrArg Prod.snd heq
      exact absurd (hveq ▸ hcv) hvv
    · exact h
  · intro e he
    exact hInv.open_sound e (hperm.mem_iff.mpr (List.mem_cons_of_mem _ he))

theorem astar_pop_core {pf : Pathfinder} {board : Board} {start goal : Pos} {st : AState}
    {f : Nat} {cur : Pos} {rest : List (Nat × Pos)}
    (hInv : AInv pf board start goal st)
    (hpop : popMin st.openSet = some ((f, cur), rest)) (hcv : cur ∉ st.visited)
    {gcur : Nat} (hgc : lookupA st.gScore cur = some gcur)
    (hminc : MinReach (stepV pf board) start cur gcur) :
    AInvCore pf board start goal cur
      { st with openSet := rest, visited := insert cur st.visited } := by
  obtain ⟨hperm, hmin⟩ := popMin_spec hpop
  refine ⟨hInv.g_start, hInv.cf_start, hInv.g_trail, hInv.g_bound, hInv.g_cells,
    ?_, ?_, ?_, ?_⟩
  · intro v hv
    rcases Finset.mem_insert.mp hv with rfl | hv
    · exact ⟨gcur, hgc, hminc⟩
    · exact hInv.vis_opt v hv
  · intro v hv hvc gv hgv w hw
    rcases Finset.mem_insert.mp hv with rfl | hv
    · exact absurd rfl hvc
    · exact hInv.vis_expanded v hv gv hgv w hw
  · intro v gv hgv hvv
    have hvv' : v ∉ st.visited := fun h => hvv (Finset.mem_insert_of_mem h)
    have hvcur : v ≠ cur := fun h => hvv (h ▸ Finset.mem_insert_self _ _)
    have hmem := hInv.open_entry v gv hgv hvv'
    have hmem2 := hperm.mem_iff.mp hmem
    rcases List.mem_cons.mp hmem2 with heq | h
    · exact absurd (congrArg Prod.snd heq) hvcur
    · exact h
  · intro e he
    exact hInv.open_sound e (hperm.mem_iff.mpr (List.mem_cons_of_mem _ he))

theorem astarLoop_spec (pf : Pathfinder) (board : Board) (start goal : Pos) :
    ∀ (fuel : Nat) (st : AState), AInv pf board start goal st →
      start ∈ st.visited → goal ∉ st.visited →
      measureA pf start st < fuel →
      (∀ p, astarLoop pf board goal fuel st = some p →
        ∃ d, MinReach (stepV pf board) start goal d ∧ p.length = d + 1 ∧
          p.head? = some start ∧ p.getLast? = some goal ∧ List.Chain' nbr p ∧
          ∀ x ∈ p.tail, pf.passable board x = true) ∧
      (astarLoop pf board goal fuel st = none →
        ∀ k, ¬ relN (stepV pf board) k start goal) := by
  intro fuel
  induction fuel with
  | zero =>
    intro st hInv hsv hgvis hm
    exact absurd hm (Nat.not_lt_zero _)
  | succ fuel ih =>
    intro st hInv hsv hgvis hm
    cases hpop : popMin st.openSet with
    | none =>
      have hopen := popMin_none hpop
      simp only [astarLoop, hpop]
      refine ⟨?_, ?_⟩
      · intro p hp
        exact absurd hp (Option.noConfusion)
      · intro _
        exact astar_stuck hInv hsv hopen goal hgvis
    | some pr =>
      obtain ⟨⟨f, cur⟩, rest⟩ := pr
      obtain ⟨hperm, hminpop⟩ := popMin_spec hpop
      have hlenopen : st.openSet.length = rest.length + 1 := by
        rw [hperm.length_eq]
        rfl
      simp only [astarLoop, hpop]
      by_cases hcv : cur ∈ st.visited
      · rw [if_pos hcv]
        have hInv1 := astar_skip_inv hInv hpop hcv
        have hm1 : measureA pf start { st with openSet := rest } < fuel := by
          have heq : measureA pf start { st with openSet := rest } + 1 =
              measureA pf start st := by
            show rest.length +
                (cellsPlus pf start \ st.visited).sum (phiG pf st.gScore) + 1 =
              st.openSet.length +
                (cellsPlus pf start \ st.visited).sum (phiG pf st.gScore)
            omega
          omega
        exact ih { st with openSet := rest } hInv1 hsv hgvis hm1
      · rw [if_neg hcv]
        have hpoppedmem : (f, cur) ∈ st.openSet :=
          hperm.mem_iff.mpr (List.mem_cons_self _ _)
        obtain ⟨gcur, hgc0, _⟩ := hInv.open_sound _ hpoppedmem
        have hgc : lookupA st.gScore cur = some gcur := hgc0
        have hminc : MinReach (stepV pf board) start cur gcur :=
          astar_pop_opt hInv hsv hpop hcv hgc
        by_cases hcg : cur = goal
        · subst hcg
          rw [if_pos rfl]
          refine ⟨?_, ?_⟩
          · intro p hp
            have hpeq : (reconstructPath st.cameFrom (pf.width * pf.height + 2) cur
                [cur]).reverse = p := Option.some.inj hp
            obtain ⟨l, htrail⟩ := hInv.g_trail cur gcur hgc
            obtain ⟨hlne, hh, hl, hc, htail, hlen⟩ := gTrail_props htrail
            have hgbnd : gcur ≤ pf.width * pf.height + 1 := hInv.g_bound _ _ hgc
            have hfuel : l.length ≤ pf.width * pf.height + 2 := by omega
            have hrec : reconstructPath st.cameFrom (pf.width * pf.height + 2) cur [cur] =
                [cur] ++ l.reverse.tail := reconstruct_eq htrail _ [cur] hfuel
            have hlrev : cur :: l.reverse.tail = l.reverse :=
              List.cons_head?_tail (by rw [List.head?_reverse]; exact hl)
            have hpl : p = l := by
              rw [← hpeq, hrec, List.singleton_append, hlrev, List.reverse_reverse]
            subst hpl
            have hwalk := gTrail_relN htrail
            have hminlen : gcur ≤ p.length - 1 := hminc.2 _ hwalk
            have hlen1 : 0 < p.length := List.length_pos.mpr hlne
            exact ⟨gcur, hminc, by omega, hh, hl, hc, htail⟩
          · intro hcontra
            exact absurd hcontra (Option.some_ne_none _)
        · rw [if_neg hcg]
          have hgbnd : gcur ≤ pf.width * pf.height := by
            have h1 := minReach_le_card (S := cellsPlus pf start) hminc
              (start_mem_cellsPlus pf start)
              (fun u v h => mem_cellsPlus_of_passable h.2)
            have h2 := card_cellsPlus_le pf start
            omega
          have hcore := astar_pop_core hInv hpop hcv hgc hminc
          have hsv1 : start ∈ (insert cur st.visited : Finset Pos) :=
            Finset.mem_insert_of_mem hsv
          have hcv1 : cur ∈ (insert cur st.visited : Finset Pos) :=
            Finset.mem_insert_self _ _
          have hgc1 : lookupA ({ st with openSet := rest, visited := insert cur st.visited } : AState).gScore cur = some gcur := hgc
          obtain ⟨hInv2, hvis2, hmeas2⟩ :=
            astarExpand_full hcore hsv1 hcv1 hgc1 hminc hgbnd
          have hcurD : cur ∈ cellsPlus pf start \ st.visited := by
            refine Finset.mem_sdiff.mpr ⟨?_, hcv⟩
            rcases hInv.g_cells cur gcur hgc with heq | hpassc
            · rw [heq]
              exact start_mem_cellsPlus pf start
            · exact mem_cellsPlus_of_passable hpassc
          have hset : cellsPlus pf start \ insert cur st.visited =
              (cellsPlus pf start \ st.visited).erase cur := by
            ext x
            simp only [Finset.mem_sdiff, Finset.mem_insert, Finset.mem_erase, not_or]
            tauto
          have hsum : ((cellsPlus pf start \ st.visited).erase cur).sum
                (phiG pf st.gScore) + phiG pf st.gScore cur =
              (cellsPlus pf start \ st.visited).sum (phiG pf st.gScore) :=
            Finset.sum_erase_add _ _ hcurD
          have hm1 : measureA pf start ({ st with openSet := rest, visited := insert cur st.visited } : AState) + 1 ≤ measureA pf start st := by
            have heq1 : measureA pf start ({ st with openSet := rest, visited := insert cur st.visited } : AState) =
                rest.length + (cellsPlus pf start \ insert cur st.visited).sum
                  (phiG pf st.gScore) := rfl
            rw [heq1, hset]
            show rest.length + ((cellsPlus pf start \ st.visited).erase cur).sum
                (phiG pf st.gScore) + 1 ≤
              st.openSet.length + (cellsPlus pf start \ st.visited).sum (phiG pf st.gScore)
            omega
          have hm2 : measureA pf start (astarExpand pf board goal cur directions
              ({ st with openSet := rest, visited := insert cur st.visited } : AState)) < fuel := by
            omega
          have hsv2 : start ∈ (astarExpand pf board goal cur directions
              ({ st with openSet := rest, visited := insert cur st.visited } : AState)).visited := by
            rw [hvis2]
            exact hsv1
          have hgvis2 : goal ∉ (astarExpand pf board goal cur directions
              ({ st with openSet := rest, visited := insert cur st.visited } : AState)).visited := by
            rw [hvis2]
            intro hmem
            rcases Finset.mem_insert.mp hmem with heq | hmem
            · exact hcg heq.symm
            · exact hgvis hmem
          exact ih _ hInv2 hsv2 hgvis2 hm2

theorem astarLoop_succ (pf : Pathfinder) (board : Board) (goal : Pos) (fuel : Nat)
    (st : AState) :
    astarLoop pf board goal (fuel + 1) st =
      match popMin st.openSet with
      | none => none
      | some ((_, current), rest) =>
        if current ∈ st.visited then
          astarLoop pf board goal fuel { st with openSet := rest }
        else
          if current = goal then
            some (reconstructPath st.cameFrom (pf.width * pf.height + 2) current
              [current]).reverse
          else
            astarLoop pf board goal fuel (astarExpand pf board goal current directions
              { st with openSet := rest, visited := insert current st.visited }) := rfl

theorem lookupA_singleton {α : Type} (k : Pos) (a : α) (x : Pos) :
    lookupA [(k, a)] x = if k = x then some a else none := by
  rw [lookupA_cons, lookupA_nil]

theorem a_star_spec (pf : Pathfinder) (start goal : Pos) (board : Board)
    (hne : start ≠ goal) :
    (∀ p, pf.a_star start goal board = some p →
      ∃ d, MinReach (stepV pf board) start goal d ∧ p.length = d + 1 ∧
        p.head? = some start ∧ p.getLast? = some goal ∧ List.Chain' nbr p ∧
        ∀ x ∈ p.tail, pf.passable board x = true) ∧
    (pf.a_star start goal board = none →
      ∀ k, ¬ relN (stepV pf board) k start goal) := by
  have hcore0 : AInvCore pf board start goal start { openSet := [], cameFrom := [], gScore := [(start, 0)], fScore := [(start, heuristic goal start)], visited := insert start ∅ } := by
    refine ⟨?_, rfl, ?_, ?_, ?_, ?_, ?_, ?_, ?_⟩
    · show lookupA [(start, 0)] start = some 0
      rw [lookupA_singleton, if_pos rfl]
    · intro v gv hv
      have hv' : lookupA [(start, 0)] v = some gv := hv
      rw [lookupA_singleton] at hv'
      by_cases hs : start = v
      · rw [if_pos hs] at hv'
        obtain rfl := Option.some.inj hv'
        refine ⟨[v], ?_⟩
        rw [← hs]
        exact GTrail.base (by rw [lookupA_singleton, if_pos rfl]) rfl
      · rw [if_neg hs] at hv'
        exact absurd hv' (Option.noConfusion)
    · intro v gv hv
      have hv' : lookupA [(start, 0)] v = some gv := hv
      rw [lookupA_singleton] at hv'
      by_cases hs : start = v
      · rw [if_pos hs] at hv'
        obtain rfl := Option.some.inj hv'
        omega
      · rw [if_neg hs] at hv'
        exact absurd hv' (Option.noConfusion)
    · intro v gv hv
      have hv' : lookupA [(start, 0)] v = some gv := hv
      rw [lookupA_singleton] at hv'
      by_cases hs : start = v
      · exact Or.inl hs.symm
      · rw [if_neg hs] at hv'
        exact absurd hv' (Option.noConfusion)
    · intro v hv
      have hv' : v ∈ insert start (∅ : Finset Pos) := hv
      have heq : v = start := by
        rcases Finset.mem_insert.mp hv' with heq | hbad
        · exact heq
        · exact absurd hbad (Finset.not_mem_empty v)
      refine ⟨0, ?_, ?_⟩
      · show lookupA [(start, 0)] v = some 0
        rw [lookupA_singleton, if_pos heq.symm]
      · rw [heq]
        exact ⟨relN_refl _ _, fun k _ => Nat.zero_le k⟩
    · intro v hv hvc gv hgv w hw
      have hv' : v ∈ insert start (∅ : Finset Pos) := hv
      have heq : v = start := by
        rcases Finset.mem_insert.mp hv' with heq | hbad
        · exact heq
        · exact absurd hbad (Finset.not_mem_empty v)
      exact absurd heq hvc
    · intro v gv hgv hvis
      have hv' : lookupA [(start, 0)] v = some gv := hgv
      rw [lookupA_singleton] at hv'
      by_cases hs : start = v
      · have hvis' : v ∉ insert start (∅ : Finset Pos) := hvis
        rw [← hs] at hvis'
        exact absurd (Finset.mem_insert_self start ∅) hvis'
      · rw [if_neg hs] at hv'
        exact absurd hv' (Option.noConfusion)
    · intro e he
      exact absurd he (List.not_mem_nil e)
  have hmin0 : MinReach (stepV pf board) start start 0 :=
    ⟨relN_refl _ _, fun k _ => Nat.zero_le k⟩
  have hgc0 : lookupA [(start, 0)] start = some 0 := by
    rw [lookupA_singleton, if_pos rfl]
  obtain ⟨hInv2, hvis2, hmeas2⟩ := astarExpand_full hcore0
    (Finset.mem_insert_self start ∅) (Finset.mem_insert_self start ∅) hgc0 hmin0
    (Nat.zero_le _)
  have hmeas1 : measureA pf start { openSet := [], cameFrom := [], gScore := [(start, 0)], fScore := [(start, heuristic goal start)], visited := insert start ∅ } ≤ pf.width * pf.height * (pf.width * pf.height + 2) := by
    have hsumle : (cellsPlus pf start \ insert start ∅).sum (phiG pf [(start, 0)]) ≤
        (cellsPlus pf start \ insert start ∅).card • (pf.width * pf.height + 2) := by
      refine Finset.sum_le_card_nsmul _ _ _ ?_
      intro x _
      refine phiG_le ?_ x
      intro v gv hv
      rw [lookupA_singleton] at hv
      by_cases hs : start = v
      · rw [if_pos hs] at hv
        obtain rfl := Option.some.inj hv
        omega
      · rw [if_neg hs] at hv
        exact absurd hv (Option.noConfusion)
    have hcard : (cellsPlus pf start \ insert start ∅).card ≤ pf.width * pf.height := by
      have h1 : cellsPlus pf start \ insert start ∅ =
          (cellsPlus pf start).erase start := by
        ext x
        simp only [Finset.mem_sdiff, Finset.mem_insert, Finset.mem_erase,
          Finset.not_mem_empty, or_false]
        tauto
      rw [h1, Finset.card_erase_of_mem (start_mem_cellsPlus pf start)]
      have := card_cellsPlus_le pf start
      omega
    rw [smul_eq_mul] at hsumle
    have hmul : (cellsPlus pf start \ insert start ∅).card *
        (pf.width * pf.height + 2) ≤
        pf.width * pf.height * (pf.width * pf.height + 2) :=
      Nat.mul_le_mul_right _ hcard
    show 0 + (cellsPlus pf start \ insert start ∅).sum (phiG pf [(start, 0)]) ≤
      pf.width * pf.height * (pf.width * pf.height + 2)
    omega
  have hm2 : measureA pf start (astarExpand pf board goal start directions { openSet := [], cameFrom := [], gScore := [(start, 0)], fScore := [(start, heuristic goal start)], visited := insert start ∅ }) < (pf.width * pf.height + 1) * (pf.width * pf.height + 2) + 1 := by
    have hexp : (pf.width * pf.height + 1) * (pf.width * pf.height + 2) =
        pf.width * pf.height * (pf.width * pf.height + 2) +
          (pf.width * pf.height + 2) := by ring
    omega
  have hsv2 : start ∈ (astarExpand pf board goal start directions { openSet := [], cameFrom := [], gScore := [(start, 0)], fScore := [(start, heuristic goal start)], visited := insert start ∅ }).visited := by
    rw [hvis2]
    exact Finset.mem_insert_self start ∅
  have hgvis2 : goal ∉ (astarExpand pf board goal start directions { openSet := [], cameFrom := [], gScore := [(start, 0)], fScore := [(start, heuristic goal start)], visited := insert start ∅ }).visited := by
    rw [hvis2]
    intro hmem
    rcases Finset.mem_insert.mp hmem with heq | hmem
    · exact hne heq.symm
    · exact absurd hmem (Finset.not_mem_empty goal)
  have hloop := astarLoop_spec pf board start goal
    ((pf.width * pf.height + 1) * (pf.width * pf.height + 2) + 1)
    (astarExpand pf board goal start directions { openSet := [], cameFrom := [], gScore := [(start, 0)], fScore := [(start, heuristic goal start)], visited := insert start ∅ }) hInv2 hsv2 hgvis2 hm2
  have hunfold : pf.a_star start goal board =
      astarLoop pf board goal
        ((pf.width * pf.height + 1) * (pf.width * pf.height + 2) + 1)
        (astarExpand pf board goal start directions { openSet := [], cameFrom := [], gScore := [(start, 0)], fScore := [(start, heuristic goal start)], visited := insert start ∅ }) := by
    show (if start = goal then some [start] else astarLoop pf board goal
        ((pf.width * pf.height + 1) * (pf.width * pf.height + 2) + 2)
        { openSet := [(0, start)], cameFrom := [], gScore := [(start, 0)], fScore := [(start, heuristic goal start)], visited := ∅ }) = _
    rw [if_neg hne]
    rw [show (pf.width * pf.height + 1) * (pf.width * pf.height + 2) + 2 =
      ((pf.width * pf.height + 1) * (pf.width * pf.height + 2) + 1) + 1 from rfl]
    rw [astarLoop_succ]
    show (if start ∈ (∅ : Finset Pos) then _ else
      (if start = goal then _ else _)) = _
    rw [if_neg (Finset.not_mem_empty start), if_neg hne]
  rw [hunfold]
  exact hloop

/-- **C1.** For every grid and every pair of in-bounds, unoccupied positions
`start` and `goal` that are connected through empty cells, `Pathfinder.bfs`
and `Pathfinder.a_star` both return a path; both returned paths run from
`start` to `goal` through empty in-bounds cells, they have equal length, and
that length is minimal among all 4-connected paths through empty cells; and
when `start = goal`, both return the single-element path `[start]`. -/
theorem bfs_astar_shortest_path_equiv (pf : Pathfinder) (board : Board)
    (start goal : Pos)
    (hs : pf.passable board start = true) (hg : pf.passable board goal = true)
    (hconn : ∃ r, IsPath pf board start goal r) :
    ∃ p q, pf.bfs start goal board = some p ∧ pf.a_star start goal board = some q ∧
      IsPath pf board start goal p ∧ IsPath pf board start goal q ∧
      p.length = q.length ∧
      (∀ r, IsPath pf board start goal r → p.length ≤ r.length) ∧
      (start = goal → p = [start] ∧ q = [start]) := by
  by_cases hne : start = goal
  · subst hne
    refine ⟨[start], [start], ?_, ?_, ?_, ?_, rfl, ?_, fun _ => ⟨rfl, rfl⟩⟩
    · show (if start = start then some [start] else _) = some [start]
      rw [if_pos rfl]
    · show (if start = start then some [start] else _) = some [start]
      rw [if_pos rfl]
    · refine ⟨rfl, rfl, List.chain'_singleton _, ?_⟩
      intro x hx
      simp only [List.mem_singleton] at hx
      subst hx
      exact hs
    · refine ⟨rfl, rfl, List.chain'_singleton _, ?_⟩
      intro x hx
      simp only [List.mem_singleton] at hx
      subst hx
      exact hs
    · intro r hr
      have hrne : r ≠ [] := by
        intro h
        rw [h] at hr
        obtain ⟨hh, _⟩ := hr
        simp at hh
      have := List.length_pos.mpr hrne
      simp only [List.length_singleton]
      omega
  · obtain ⟨r0, hr0⟩ := hconn
    have hwalk0 := isPath_relN hr0
    obtain ⟨mF, hmF⟩ := exists_minReach ⟨_, hwalk0⟩
    obtain ⟨hA_some, hA_none⟩ := a_star_spec pf start goal board hne
    cases hq : pf.a_star start goal board with
    | none => exact absurd hmF.1 (hA_none hq mF)
    | some q =>
      obtain ⟨d, hdmin, hqlen, hqh, hql, hqc, hqtail⟩ := hA_some q hq
      have hdm : d = mF := minReach_unique hdmin hmF
      obtain ⟨hB_some, hB_none⟩ := bfs_spec pf start goal board hne
      obtain ⟨hm1, c0, hc0rel, hc0nbr⟩ := minF_decompose hne hmF
      cases hp : pf.bfs start goal board with
      | none => exact absurd hc0nbr (hB_none hp c0 (mF - 1) hc0rel)
      | some p =>
        obtain ⟨qb, c, hpeq, htrail, hnbrc, hminE, hglob⟩ := hB_some p hp
        obtain ⟨hbh, hbl, hbc, hbtail⟩ := htrail
        have hqbne : qb ≠ [] := by
          intro h
          rw [h] at hbh
          simp at hbh
        have hqblen1 : 0 < qb.length := List.length_pos.mpr hqbne
        have hrelE : relN (stepE pf board goal) (qb.length - 1) start c :=
          trailTo_relN ⟨hbh, hbl, hbc, hbtail⟩
        have hge : mF ≤ qb.length := by
          have hcomp := minF_compose hg hrelE hnbrc
          have := hmF.2 _ hcomp
          omega
        have hle : qb.length ≤ mF := by
          have := hglob c0 (mF - 1) hc0rel hc0nbr
          omega
        have hqb_mF : qb.length = mF := le_antisymm hle hge
        have hplen : p.length = mF + 1 := by
          rw [hpeq, List.length_append, List.length_singleton, hqb_mF]
        obtain ⟨a, tl, rfl⟩ := List.exists_cons_of_ne_nil hqbne
        have hastart : start = a := by
          have h := hbh
          simp only [List.head?_cons, Option.some.injEq] at h
          exact h.symm
        subst hastart
        have hpIsPath : IsPath pf board start goal p := by
          rw [hpeq]
          refine ⟨by simp, List.getLast?_concat _, ?_, ?_⟩
          · refine List.chain'_append.mpr ⟨hbc, List.chain'_singleton _, ?_⟩
            intro x hx y hy
            rw [hbl] at hx
            simp only [Option.mem_def, Option.some.injEq] at hx
            simp only [List.head?_cons, Option.mem_def, Option.some.injEq] at hy
            subst hx
            subst hy
            exact hnbrc
          · intro x hx
            rcases List.mem_append.mp hx with hx | hx
            · rcases List.mem_cons.mp hx with rfl | hx
              · exact hs
              · exact (hbtail x hx).1
            · simp only [List.mem_singleton] at hx
              subst hx
              exact hg
        have hqIsPath : IsPath pf board start goal q := by
          refine ⟨hqh, hql, hqc, ?_⟩
          have hqcons : start :: q.tail = q := List.cons_head?_tail hqh
          intro x hx
          rw [← hqcons] at hx
          rcases List.mem_cons.mp hx with rfl | hx
          · exact hs
          · exact hqtail x hx
        refine ⟨p, q, rfl, rfl, hpIsPath, hqIsPath, ?_, ?_, fun h => absurd h hne⟩
        · rw [hplen, hqlen, hdm]
        · intro r hr
          have hwr := isPath_relN hr
          have hrne : r ≠ [] := by
            intro h
            rw [h] at hr
            obtain ⟨hh, _⟩ := hr
            simp at hh
          have hrpos : 0 < r.length := List.length_pos.mpr hrne
          have := hmF.2 _ hwr
          omega

/-- Witness for the path-equivalence theorem: on the all-empty 2-by-1 grid,
both searches return the unique shortest path from `(0,0)` to `(1,0)`. -/
theorem bfs_astar_shortest_path_equiv_witness :
    ∃ p q,
      Pathfinder.bfs ⟨2, 1⟩ (0, 0) (1, 0) [[0, 0]] = some p ∧
      Pathfinder.a_star ⟨2, 1⟩ (0, 0) (1, 0) [[0, 0]] = some q ∧
      IsPath ⟨2, 1⟩ [[0, 0]] (0, 0) (1, 0) p ∧
      IsPath ⟨2, 1⟩ [[0, 0]] (0, 0) (1, 0) q ∧
      p.length = q.length ∧
      (∀ r, IsPath ⟨2, 1⟩ [[0, 0]] (0, 0) (1, 0) r → p.length ≤ r.length) ∧
      (((0 : Int), (0 : Int)) = ((1 : Int), (0 : Int)) → p = [(0, 0)] ∧ q = [(0, 0)]) :=
  bfs_astar_shortest_path_equiv ⟨2, 1⟩ [[0, 0]] (0, 0) (1, 0) (by decide) (by decide)
    ⟨[(0, 0), (1, 0)], rfl, rfl,
      List.chain'_cons.mpr ⟨⟨(1, 0), by decide, by decide⟩, List.chain'_singleton _⟩,
      by decide⟩
